import Mathlib

/-!
# Travelling Salesman by simulated annealing: a shallow embedding

The program is `Travelling_Salesman.cpp`.  Conventions of the embedding:

* `double` is an arbitrary linearly ordered field `D` (the real-number reading of the
  arithmetic); the library functions `sqrt` and `exp`, the constant `RAND_MAX`, the result of
  `std::shuffle` and the successive results of `rand()` are inputs, gathered in `Env`.
* `int` is `Int`.  The coordinate subtractions of `cal_Euc_Dis` wrap to 32 bits
  (`wrapInt32`), as two's-complement machines compute them; the index arithmetic of the loop,
  `i+1+rand()%(numPoints-1)`, is taken exactly (it stays inside `int` for fewer than `2 ^ 30`
  points).  The one `size_t` subtraction, `tour.size()-1`, wraps modulo `2 ^ 64`.
* Operations whose behaviour C++ leaves undefined (remainder by zero, a vector read or write
  outside `0 .. size-1`) produce a `Fault` in the `Except` monad.
* The input file is the list of its characters; `infile >> n` is the formatted extraction of a
  32-bit `int` (`extractInt`), which fails by returning `none`.
-/

namespace TSP

/-- The two kinds of undefined operation the program can reach. -/
inductive Fault where
  | divByZero
  | outOfRange
  deriving DecidableEq, Repr

/-- The class `Point`: two integer coordinates and an integer label. -/
structure Point where
  x : Int
  y : Int
  index : Int
  deriving DecidableEq, Repr

/-- What the program takes from its libraries: `sqrt`, `exp`, `RAND_MAX`, the permutation
performed by `std::shuffle`, and the value returned by the `n`-th call of `rand()`. -/
structure Env (D : Type) where
  sqrt : D → D
  exp : D → D
  RAND_MAX : Int
  shuffle : List Int → List Int
  rand : Nat → Int

/-- The operator `a % b` on `int`: truncated remainder, undefined for `b = 0`. -/
def cmod (a b : Int) : Except Fault Int :=
  if b = 0 then .error .divByZero else .ok (Int.tmod a b)

/-- The read `v[i]` of a `vector` with an `int` subscript. -/
def vecAt {α : Type} (v : List α) (i : Int) : Except Fault α :=
  if i < 0 then .error .outOfRange
  else
    match v[i.toNat]? with
    | some a => .ok a
    | none => .error .outOfRange

/-- The call `swap(v[i], v[j])`. -/
def swapAt {α : Type} (v : List α) (i j : Int) : Except Fault (List α) := do
  let a ← vecAt v i
  let b ← vecAt v j
  .ok ((v.set i.toNat b).set j.toNat a)

/-- The value of `tour.size() - 1` in `size_t` arithmetic: it wraps to `2 ^ 64 - 1` for an
empty vector. -/
def sizeMinusOne (n : Nat) : Nat := if n = 0 then 2 ^ 64 - 1 else n - 1

/-- The values a 32-bit `int` holds. -/
def InInt32 (z : Int) : Prop := -2147483648 ≤ z ∧ z ≤ 2147483647

instance (z : Int) : Decidable (InInt32 z) := by
  unfold InInt32; infer_instance

/-- The `int` that a 32-bit two's-complement machine computes for an `int` operation whose
exact result is `z`: `z` itself inside the `int` range, wrapped modulo `2 ^ 32` outside. -/
def wrapInt32 (z : Int) : Int := (z + 2147483648) % 4294967296 - 2147483648

section Distance

variable {D : Type} [LinearOrderedField D]

/-- The function `cal_Euc_Dis`: the differences `p1.x-p2.x` and `p1.y-p2.y` are computed in
`int`, then converted to `double` by `pow`. -/
def cal_Euc_Dis (sqrt : D → D) (p1 p2 : Point) : D :=
  sqrt (((wrapInt32 (p1.x - p2.x) : Int) : D) ^ 2 + ((wrapInt32 (p1.y - p2.y) : Int) : D) ^ 2)

/-- The `for` loop of `cal_Total_Dis`: `n` iterations remain, the counter is `i` and the
running sum is `totalDistance`. -/
def cal_Total_Dis_loop (sqrt : D → D) (s_points : List Point) (tour : List Int) :
    Nat → Nat → D → Except Fault D
  | 0, _, totalDistance => .ok totalDistance
  | n + 1, i, totalDistance => do
    let a ← vecAt tour (i : Int)
    let b ← vecAt tour ((i : Int) + 1)
    let p ← vecAt s_points a
    let q ← vecAt s_points b
    cal_Total_Dis_loop sqrt s_points tour n (i + 1) (totalDistance + cal_Euc_Dis sqrt p q)

/-- The function `cal_Total_Dis`. -/
def cal_Total_Dis (sqrt : D → D) (s_points : List Point) (tour : List Int) : Except Fault D := do
  let totalDistance ← cal_Total_Dis_loop sqrt s_points tour (sizeMinusOne tour.length) 0 0
  let last ← vecAt tour ((tour.length : Int) - 1)
  let first ← vecAt tour 0
  let p ← vecAt s_points last
  let q ← vecAt s_points first
  .ok (totalDistance + cal_Euc_Dis sqrt p q)

/-- The point `points[t[k]]` that tour position `k` refers to, read with total list
operations. -/
def pointAt (s_points : List Point) (tour : List Int) (k : Nat) : Point :=
  s_points.getD (tour.getD k 0).toNat ⟨0, 0, 0⟩

/-- The tour length as the specification words it: the sum over `i` in `0 .. n-2` of the
distance from position `i` to position `i+1`, plus the closing edge from the last position
back to the first. -/
def tourLengthSpec (sqrt : D → D) (s_points : List Point) (tour : List Int) : D :=
  (∑ i in Finset.range (tour.length - 1),
      cal_Euc_Dis sqrt (pointAt s_points tour i) (pointAt s_points tour (i + 1)))
    + cal_Euc_Dis sqrt (pointAt s_points tour (tour.length - 1)) (pointAt s_points tour 0)

end Distance

section Annealing

variable {D : Type} [LinearOrderedField D]

/-- The local variables of `simulateAnnealing` that live across loop iterations, the number of
`rand()` calls made so far, and the progress lines printed so far. -/
structure AnnealState (D : Type) where
  currentTour : List Int
  currentDistance : D
  bestTour : List Int
  bestDistance : D
  temp : D
  randCalls : Nat
  progress : List (Int × D)

/-- The vector filled by `iota(currentTour.begin(), currentTour.end(), 0)`. -/
def iotaTour (numPoints : Int) : List Int :=
  (List.range numPoints.toNat).map Int.ofNat

/-- The tour invariant of the specification: length `n`, and each position of `0 .. n-1`
occurs exactly once. -/
def IsTour (n : Nat) (t : List Int) : Prop :=
  t.length = n ∧ ∀ v ∈ iotaTour (n : Int), t.count v = 1

instance (n : Nat) (t : List Int) : Decidable (IsTour n t) := by
  unfold IsTour; infer_instance

/-- The two positions drawn at the top of the loop body. -/
def pickMove (L : Env D) (numPoints : Int) (calls : Nat) : Except Fault (Int × Int) := do
  let i ← cmod (L.rand calls) numPoints
  let r ← cmod (L.rand (calls + 1)) (numPoints - 1)
  let j ← cmod (i + 1 + r) numPoints
  .ok (i, j)

/-- The value `rand()/static_cast<double>(RAND_MAX)`. -/
def uniformDraw (L : Env D) (r : Int) : D := (r : D) / (L.RAND_MAX : D)

/-- The condition of the `if`: `delta<0 || exp(-delta/temp) > u`. -/
def accepts (L : Env D) (delta temp u : D) : Bool :=
  decide (delta < 0) || decide (L.exp (-delta / temp) > u)

/-- One execution of the loop body of `simulateAnnealing`, at loop counter `iter`. -/
def annealBody (L : Env D) (s_points : List Point) (numPoints : Int) (coolingRate : D)
    (iter : Int) (st : AnnealState D) : Except Fault (AnnealState D) := do
  let (i, j) ← pickMove L numPoints st.randCalls
  let swapped ← swapAt st.currentTour i j
  let new_Distance ← cal_Total_Dis L.sqrt s_points swapped
  let delta := new_Distance - st.currentDistance
  -- `rand()` is called a third time only when `delta<0` does not already decide the `||`
  let calls := if delta < 0 then st.randCalls + 2 else st.randCalls + 3
  let u := uniformDraw L (L.rand (st.randCalls + 2))
  let st1 ←
    if accepts L delta st.temp u then
      if new_Distance < st.bestDistance then
        (.ok { st with currentTour := swapped, currentDistance := new_Distance,
                       bestTour := swapped, bestDistance := new_Distance } :
          Except Fault (AnnealState D))
      else
        .ok { st with currentTour := swapped, currentDistance := new_Distance }
    else do
      let restored ← swapAt swapped i j
      .ok { st with currentTour := restored }
  let st2 := { st1 with temp := st1.temp * coolingRate, randCalls := calls }
  if Int.tmod iter 1000 = 0 then
    .ok { st2 with progress := st2.progress ++ [(iter, st2.bestDistance)] }
  else
    .ok st2

/-- The statements of `simulateAnnealing` before the loop. -/
def annealInit (L : Env D) (s_points : List Point) (initialTmp : D) :
    Except Fault (AnnealState D) := do
  let numPoints : Int := s_points.length
  let currentTour := L.shuffle (iotaTour numPoints)
  let currentDistance ← cal_Total_Dis L.sqrt s_points currentTour
  .ok { currentTour := currentTour, currentDistance := currentDistance,
        bestTour := currentTour, bestDistance := currentDistance,
        temp := initialTmp, randCalls := 0, progress := [] }

/-- The state after the first `k` iterations of the loop (`iter = 0, …, k-1`), from `st`. -/
def annealIters (L : Env D) (s_points : List Point) (numPoints : Int) (coolingRate : D) :
    Nat → AnnealState D → Except Fault (AnnealState D)
  | 0, st => .ok st
  | k + 1, st => do
    let st1 ← annealIters L s_points numPoints coolingRate k st
    annealBody L s_points numPoints coolingRate (k : Int) st1

/-- The state of `simulateAnnealing` after `k` loop iterations. -/
def annealAfter (L : Env D) (s_points : List Point) (initialTmp coolingRate : D) (k : Nat) :
    Except Fault (AnnealState D) := do
  let st ← annealInit L s_points initialTmp
  annealIters L s_points (s_points.length : Int) coolingRate k st

/-- The function `simulateAnnealing`: the loop runs for `iter = 0, …, iteration-1`. -/
def simulateAnnealing (L : Env D) (s_points : List Point) (iteration : Int)
    (initialTmp coolingRate : D) : Except Fault (List Int) := do
  let st ← annealAfter L s_points initialTmp coolingRate iteration.toNat
  .ok st.bestTour

end Annealing

section Export

/-- The text the stream writes for one loop pass `for(int idx:tour)`, without the line end. -/
def exportRow (s_points : List Point) (idx : Int) : Except Fault String := do
  let p ← vecAt s_points idx
  let q ← vecAt s_points (idx - 1)
  .ok (toString p.index ++ "," ++ toString p.x ++ "," ++ toString q.y)

/-- The text of the row written after the loop, without the line end. -/
def exportClosingRow (s_points : List Point) (tour : List Int) : Except Fault String := do
  let t0 ← vecAt tour 0
  let p ← vecAt s_points t0
  .ok (toString p.index ++ "," ++ toString p.x ++ ", " ++ toString p.y)

/-- The function `exportTourtoCSV`: the lines written to the file, in order (each is followed
by a line end); no line when the file cannot be opened. -/
def exportTourtoCSV (s_points : List Point) (tour : List Int) (opened : Bool) :
    Except Fault (List String) :=
  if opened then do
    let rows ← tour.mapM (exportRow s_points)
    let closing ← exportClosingRow s_points tour
    .ok ("Index,X,Y" :: rows ++ [closing])
  else
    .ok []

end Export

section Reader

/-- The white-space characters that `operator>>` skips: blank, tab, line feed, vertical tab,
form feed and carriage return (the `isspace` set of the C locale). -/
def isSpaceChar (c : Char) : Bool := c.toNat = 32 || (9 ≤ c.toNat && c.toNat ≤ 13)

/-- The decimal digits `0` to `9`. -/
def isDigitChar (c : Char) : Bool := 48 ≤ c.toNat && c.toNat ≤ 57

/-- The number written by a run of decimal digits. -/
def digitsValue (ds : List Char) : Nat :=
  ds.foldl (fun n c => 10 * n + (c.toNat - 48)) 0

/-- An optional leading sign: whether it is a minus (code 45; a plus is code 43), and the
characters after it. -/
def signOf : List Char → Bool × List Char
  | [] => (false, [])
  | c :: r =>
    if c.toNat = 45 then (true, r)
    else if c.toNat = 43 then (false, r)
    else (false, c :: r)

/-- The digits of an `int` extraction after the sign: the longest run of digits is read; the
extraction fails when the run is empty or its signed value does not fit a 32-bit `int`. -/
def readDigits (neg : Bool) (body : List Char) : Option (Int × List Char) :=
  let ds := body.takeWhile isDigitChar
  let v : Int := if neg then -(digitsValue ds : Int) else (digitsValue ds : Int)
  if ds = [] then none
  else if -2147483648 ≤ v ∧ v ≤ 2147483647 then some (v, body.dropWhile isDigitChar)
  else none

/-- The extraction `infile >> n` into an `int n`, as the C++ standard library performs it in
the default decimal base and the C locale, on the unread characters of the stream: white
space is skipped, then an optional sign and the longest run of decimal digits are read.  The
result is the value with the characters left unread, or `none` when the extraction fails and
puts the stream in its failed state. -/
def extractInt (s : List Char) : Option (Int × List Char) :=
  let signed := signOf (s.dropWhile isSpaceChar)
  readDigits signed.1 signed.2

/-- One evaluation of the loop condition `infile>>index>>x>>y`: three extractions in a row;
once one fails the stream stays failed and the condition is false.  On success the loop body
pushes `Point(index, x, y)`. -/
def readRecord (s : List Char) : Option (Point × List Char) := do
  let (index, s1) ← extractInt s
  let (x, s2) ← extractInt s1
  let (y, s3) ← extractInt s2
  some ({ index := index, x := x, y := y }, s3)

/-- The `while` loop of `read_points`; `fuel` bounds the number of records read. -/
def read_points_loop : Nat → List Char → List Point → List Point
  | 0, _, S_points => S_points
  | fuel + 1, s, S_points =>
    match readRecord s with
    | some (p, rest) => read_points_loop fuel rest (S_points ++ [p])
    | none => S_points

/-- The member function `PointReader::read_points`, on the member `S_points`, whether the file
could be opened, and the characters of the file: the returned flag and the new `S_points`.
Every record read consumes at least one character, so the length of the file bounds the
number of loop iterations. -/
def read_points (S_points : List Point) (opened : Bool) (content : List Char) :
    Bool × List Point :=
  if opened then (true, read_points_loop content.length content S_points)
  else (false, S_points)


/-- The integer a token writes, in the sense of the claim on parsing: an optional sign, then
at least one decimal digit and nothing else, with a value that fits a 32-bit `int`. -/
def intOfToken (t : List Char) : Option Int :=
  let signed := signOf t
  let v : Int :=
    if signed.1 then -(digitsValue signed.2 : Int) else (digitsValue signed.2 : Int)
  if signed.2 ≠ [] ∧ signed.2.all isDigitChar = true ∧ -2147483648 ≤ v ∧ v ≤ 2147483647 then
    some v
  else none

/-- A text given by its layout: the white space `lead`, then each token followed by the white
space after it. -/
def layout (lead : List Char) : List (List Char × List Char) → List Char
  | [] => lead
  | (t, sep) :: r => lead ++ t ++ layout sep r

/-- The items are the white-space separated tokens of a text: a token is non-empty and has no
white space, what follows it is white space only, and is non-empty unless the token is the
last one. -/
def WellSeparated : List (List Char × List Char) → Prop
  | [] => True
  | (t, sep) :: r =>
    t ≠ [] ∧ (∀ c ∈ t, isSpaceChar c = false) ∧ (∀ c ∈ sep, isSpaceChar c = true) ∧
      (r = [] ∨ sep ≠ []) ∧ WellSeparated r

instance decWellSeparated : (items : List (List Char × List Char)) →
    Decidable (WellSeparated items)
  | [] => isTrue trivial
  | (t, sep) :: r => by
    have := decWellSeparated r
    unfold WellSeparated
    infer_instance

/-- The points written by a sequence of integers read three at a time as `index`, `x`, `y`;
fewer than three trailing integers give no point. -/
def pointsOf : List Int → List Point
  | index :: x :: y :: r => { index := index, x := x, y := y } :: pointsOf r
  | _ => []

end Reader

/-! ## Reads, remainders and swaps -/

theorem vecAt_of_valid {α : Type} (v : List α) (a : Int) (d : α) (h0 : 0 ≤ a)
    (h1 : a < (v.length : Int)) : vecAt v a = .ok (v.getD a.toNat d) := by
  have hlt : a.toNat < v.length := by omega
  unfold vecAt
  rw [if_neg (by omega)]
  simp [List.getElem?_eq_getElem hlt, List.getD_eq_getElem _ _ hlt]

theorem vecAt_natCast {α : Type} (v : List α) (k : Nat) (d : α) (h : k < v.length) :
    vecAt v (k : Int) = .ok (v.getD k d) := by
  have := vecAt_of_valid v (k : Int) d (by omega) (by omega)
  simpa using this

theorem swap_set_perm {α : Type} (v : List α) (i j : Nat) (hi : i < v.length)
    (hj : j < v.length) : List.Perm ((v.set i v[j]).set j v[i]) v := by
  have key : (v.set i v[j]).set j v[i]
      = List.ofFn (v.get ∘ Equiv.swap (⟨i, hi⟩ : Fin v.length) ⟨j, hj⟩) := by
    apply List.ext_getElem
    · simp
    · intro k h1 h2
      have hk : k < v.length := by simpa using h1
      simp only [List.getElem_set, List.getElem_ofFn, Function.comp_apply, List.get_eq_getElem,
        Equiv.swap_apply_def, Fin.mk.injEq]
      by_cases hkj : j = k
      · subst hkj
        by_cases hki : j = i
        · subst hki; simp
        · simp [hki]
      · by_cases hki : i = k
        · subst hki; simp [hkj]
        · have h1 : ¬ k = i := fun h => hki h.symm
          have h2 : ¬ k = j := fun h => hkj h.symm
          simp [hkj, hki, h1, h2]
  rw [key]
  refine (Equiv.Perm.ofFn_comp_perm _ _).trans ?_
  rw [List.ofFn_get]

theorem swap_set_twice {α : Type} (v : List α) (i j : Nat) (hi : i < v.length)
    (hj : j < v.length) :
    (((v.set i v[j]).set j v[i]).set i v[i]).set j v[j] = v := by
  apply List.ext_getElem
  · simp
  · intro k h1 h2
    simp only [List.getElem_set]
    by_cases hkj : j = k
    · subst hkj; simp
    · by_cases hki : i = k
      · subst hki; simp [hkj]
      · simp [hkj, hki]

theorem vecAt_getElem {α : Type} (v : List α) (a : Int) (h0 : 0 ≤ a)
    (h1 : a.toNat < v.length) : vecAt v a = .ok v[a.toNat] := by
  unfold vecAt
  rw [if_neg (by omega)]
  simp [List.getElem?_eq_getElem h1]

/-- A swap at two valid positions succeeds, permutes the vector, and is undone by the same
swap. -/
theorem swapAt_valid {α : Type} (v : List α) (i j : Int) (hi0 : 0 ≤ i)
    (hi : i < (v.length : Int)) (hj0 : 0 ≤ j) (hj : j < (v.length : Int)) :
    ∃ w, swapAt v i j = .ok w ∧ List.Perm w v ∧ swapAt w i j = .ok v ∧
      ∀ (d : α), w.getD i.toNat d = v.getD j.toNat d := by
  have hi' : i.toNat < v.length := by omega
  have hj' : j.toNat < v.length := by omega
  refine ⟨(v.set i.toNat v[j.toNat]).set j.toNat v[i.toNat], ?_, ?_, ?_, ?_⟩
  · simp [swapAt, vecAt_getElem v i hi0 hi', vecAt_getElem v j hj0 hj', bind, Except.bind]
  · exact swap_set_perm v _ _ hi' hj'
  · have hwi : i.toNat < ((v.set i.toNat v[j.toNat]).set j.toNat v[i.toNat]).length := by
      simpa using hi'
    have hwj : j.toNat < ((v.set i.toNat v[j.toNat]).set j.toNat v[i.toNat]).length := by
      simpa using hj'
    have ei : ((v.set i.toNat v[j.toNat]).set j.toNat v[i.toNat])[i.toNat] = v[j.toNat] := by
      simp only [List.getElem_set]
      by_cases h : j.toNat = i.toNat
      · simp [h]
      · simp [h]
    have ej : ((v.set i.toNat v[j.toNat]).set j.toNat v[i.toNat])[j.toNat] = v[i.toNat] := by
      simp [List.getElem_set]
    simp only [swapAt, vecAt_getElem _ i hi0 hwi, vecAt_getElem _ j hj0 hwj, bind, Except.bind,
      ei, ej]
    rw [swap_set_twice v _ _ hi' hj']
  · intro d
    have hwi : i.toNat < ((v.set i.toNat v[j.toNat]).set j.toNat v[i.toNat]).length := by
      simpa using hi'
    rw [List.getD_eq_getElem _ _ hwi, List.getD_eq_getElem _ _ hj']
    simp only [List.getElem_set]
    by_cases h : j.toNat = i.toNat
    · simp [h]
    · simp [h]

theorem iotaTour_facts (n : Nat) (t : List Int) (h : List.Perm t (iotaTour (n : Int))) :
    t.length = n ∧ (∀ a ∈ t, 0 ≤ a ∧ a < (n : Int)) ∧ t.Nodup := by
  refine ⟨?_, ?_, ?_⟩
  · rw [h.length_eq]; simp [iotaTour]
  · intro a ha
    have := h.mem_iff.mp ha
    simp only [iotaTour, Int.toNat_ofNat, List.mem_map, List.mem_range] at this
    obtain ⟨m, hm, rfl⟩ := this
    constructor
    · exact Int.ofNat_nonneg m
    · exact Int.ofNat_lt.mpr hm
  · rw [h.nodup_iff]
    unfold iotaTour
    apply List.Nodup.map
    · intro a b hab; exact Int.ofNat.inj hab
    · exact List.nodup_range _

theorem pickMove_valid {D : Type} (L : Env D) (n : Nat) (calls : Nat) (hn : 2 ≤ n)
    (hrand : ∀ m, 0 ≤ L.rand m) :
    ∃ i j : Int, pickMove L (n : Int) calls = .ok (i, j) ∧
      0 ≤ i ∧ i < (n : Int) ∧ 0 ≤ j ∧ j < (n : Int) ∧ i ≠ j := by
  have hn0 : (n : Int) ≠ 0 := by omega
  have hn1 : (n : Int) - 1 ≠ 0 := by omega
  have hnpos : (0 : Int) < n := by omega
  have hi0 : 0 ≤ (L.rand calls) % (n : Int) := Int.emod_nonneg _ hn0
  have hi1 : (L.rand calls) % (n : Int) < n := Int.emod_lt_of_pos _ hnpos
  have hr0 : 0 ≤ (L.rand (calls + 1)) % ((n : Int) - 1) := Int.emod_nonneg _ hn1
  have hr1 : (L.rand (calls + 1)) % ((n : Int) - 1) < (n : Int) - 1 :=
    Int.emod_lt_of_pos _ (by omega)
  generalize hi : (L.rand calls) % (n : Int) = i at hi0 hi1
  generalize hr : (L.rand (calls + 1)) % ((n : Int) - 1) = r at hr0 hr1
  refine ⟨i, (i + 1 + r) % (n : Int), ?_, hi0, hi1, Int.emod_nonneg _ hn0,
    Int.emod_lt_of_pos _ hnpos, ?_⟩
  · simp only [pickMove, cmod, if_neg hn0, if_neg hn1, bind, Except.bind]
    rw [Int.tmod_eq_emod (hrand _) (by omega), Int.tmod_eq_emod (hrand _) (by omega), hi, hr,
      Int.tmod_eq_emod (by omega) (by omega)]
  · by_cases hlt : i + 1 + r < (n : Int)
    · rw [Int.emod_eq_of_lt (by omega) hlt]; omega
    · have : (i + 1 + r) % (n : Int) = i + 1 + r - n := by
        have e : i + 1 + r = (i + 1 + r - n) + n := by ring
        rw [e, Int.add_emod_self, ← e]
        exact Int.emod_eq_of_lt (by omega) (by omega)
      omega

/-! ## Coordinate differences in `int` -/

theorem wrapInt32_of_inInt32 (z : Int) (h : InInt32 z) : wrapInt32 z = z := by
  unfold InInt32 at h
  unfold wrapInt32
  omega

theorem wrapInt32_zero : wrapInt32 0 = 0 := by decide

theorem wrapInt32_one : wrapInt32 1 = 1 := by decide

theorem wrapInt32_neg_one : wrapInt32 (-1) = -1 := by decide

/-- The value of `cal_Euc_Dis` when the two coordinate differences are known and fit `int`. -/
theorem cal_Euc_Dis_of_diff {D : Type} [LinearOrderedField D] (sqrt : D → D) (p1 p2 : Point)
    (dx dy : Int) (hx : p1.x - p2.x = dx) (hy : p1.y - p2.y = dy) (hdx : InInt32 dx)
    (hdy : InInt32 dy) :
    cal_Euc_Dis sqrt p1 p2 = sqrt ((dx : D) ^ 2 + (dy : D) ^ 2) := by
  unfold cal_Euc_Dis
  rw [hx, hy, wrapInt32_of_inInt32 _ hdx, wrapInt32_of_inInt32 _ hdy]

/-! ## Tour length -/

section DistanceFacts

variable {D : Type} [LinearOrderedField D]

theorem cal_Total_Dis_loop_eq (sqrt : D → D) (s_points : List Point) (tour : List Int)
    (hvalid : ∀ a ∈ tour, 0 ≤ a ∧ a < (s_points.length : Int)) :
    ∀ (n i : Nat) (acc : D), i + n + 1 ≤ tour.length →
      cal_Total_Dis_loop sqrt s_points tour n i acc =
        .ok (acc + ∑ k in Finset.range n,
          cal_Euc_Dis sqrt (pointAt s_points tour (i + k)) (pointAt s_points tour (i + k + 1))) := by
  intro n
  induction n with
  | zero => intro i acc _; simp [cal_Total_Dis_loop]
  | succ n ih =>
    intro i acc h
    have hi : i < tour.length := by omega
    have hi1 : i + 1 < tour.length := by omega
    have ha := hvalid (tour.getD i 0) (by rw [List.getD_eq_getElem _ _ hi]; exact List.getElem_mem _)
    have hb := hvalid (tour.getD (i + 1) 0)
      (by rw [List.getD_eq_getElem _ _ hi1]; exact List.getElem_mem _)
    have e1 : vecAt tour (i : Int) = .ok (tour.getD i 0) := vecAt_natCast tour i 0 hi
    have e2 : vecAt tour ((i : Int) + 1) = .ok (tour.getD (i + 1) 0) := by
      have := vecAt_natCast tour (i + 1) 0 hi1
      simpa using this
    have e3 := vecAt_of_valid s_points (tour.getD i 0) ⟨0, 0, 0⟩ ha.1 ha.2
    have e4 := vecAt_of_valid s_points (tour.getD (i + 1) 0) ⟨0, 0, 0⟩ hb.1 hb.2
    simp only [cal_Total_Dis_loop, e1, e2, e3, e4, bind, Except.bind]
    rw [ih (i + 1) _ (by omega), Finset.sum_range_succ']
    simp only [pointAt, add_zero, Except.ok.injEq]
    have : ∀ k, i + 1 + k = i + (k + 1) := by intro k; omega
    simp only [this]
    ring

/-- On a non-empty tour of valid positions `cal_Total_Dis` completes with the specified sum. -/
theorem cal_Total_Dis_eq (sqrt : D → D) (s_points : List Point) (tour : List Int)
    (hne : tour ≠ []) (hvalid : ∀ a ∈ tour, 0 ≤ a ∧ a < (s_points.length : Int)) :
    cal_Total_Dis sqrt s_points tour = .ok (tourLengthSpec sqrt s_points tour) := by
  have hpos : 0 < tour.length := List.length_pos.mpr hne
  have hsz : sizeMinusOne tour.length = tour.length - 1 := by
    unfold sizeMinusOne; rw [if_neg (by omega)]
  have hl := hvalid (tour.getD (tour.length - 1) 0)
    (by rw [List.getD_eq_getElem _ _ (by omega)]; exact List.getElem_mem _)
  have hf := hvalid (tour.getD 0 0)
    (by rw [List.getD_eq_getElem _ _ hpos]; exact List.getElem_mem _)
  have e1 : vecAt tour ((tour.length : Int) - 1) = .ok (tour.getD (tour.length - 1) 0) := by
    have := vecAt_natCast tour (tour.length - 1) 0 (by omega)
    rwa [Nat.cast_sub (by omega), Nat.cast_one] at this
  have e2 : vecAt tour 0 = .ok (tour.getD 0 0) := by
    have := vecAt_natCast tour 0 0 hpos
    simpa using this
  have e3 := vecAt_of_valid s_points _ ⟨0, 0, 0⟩ hl.1 hl.2
  have e4 := vecAt_of_valid s_points _ ⟨0, 0, 0⟩ hf.1 hf.2
  unfold cal_Total_Dis
  rw [hsz, cal_Total_Dis_loop_eq sqrt s_points tour hvalid _ 0 0 (by omega)]
  simp only [e1, e2, e3, e4, bind, Except.bind, tourLengthSpec, pointAt, zero_add]

end DistanceFacts

/-! ## The annealing loop -/

section
variable {D : Type} [LinearOrderedField D]

/-- One loop iteration from a state whose current tour is a permutation of `0 .. n-1`: it
completes, and the new state is described field by field. -/
theorem annealBody_run (L : Env D) (s_points : List Point) (coolingRate : D) (iter : Int)
    (st : AnnealState D) (hn : 2 ≤ s_points.length) (hrand : ∀ m, 0 ≤ L.rand m)
    (hcur : List.Perm st.currentTour (iotaTour (s_points.length : Int))) :
    ∃ (i j : Int) (swapped : List Int) (new_Distance : D) (st1 : AnnealState D),
      pickMove L (s_points.length : Int) st.randCalls = .ok (i, j) ∧
      (0 ≤ i ∧ i < (s_points.length : Int) ∧ 0 ≤ j ∧ j < (s_points.length : Int) ∧ i ≠ j) ∧
      swapAt st.currentTour i j = .ok swapped ∧
      List.Perm swapped st.currentTour ∧ swapped ≠ st.currentTour ∧
      cal_Total_Dis L.sqrt s_points swapped = .ok new_Distance ∧
      annealBody L s_points (s_points.length : Int) coolingRate iter st = .ok st1 ∧
      st1.temp = st.temp * coolingRate ∧
      (accepts L (new_Distance - st.currentDistance) st.temp
          (uniformDraw L (L.rand (st.randCalls + 2))) = true →
        st1.currentTour = swapped ∧ st1.currentDistance = new_Distance ∧
        (new_Distance < st.bestDistance →
          st1.bestTour = swapped ∧ st1.bestDistance = new_Distance) ∧
        (¬ new_Distance < st.bestDistance →
          st1.bestTour = st.bestTour ∧ st1.bestDistance = st.bestDistance)) ∧
      (accepts L (new_Distance - st.currentDistance) st.temp
          (uniformDraw L (L.rand (st.randCalls + 2))) = false →
        st1.currentTour = st.currentTour ∧ st1.currentDistance = st.currentDistance ∧
        st1.bestTour = st.bestTour ∧ st1.bestDistance = st.bestDistance) := by
  obtain ⟨hlen, hval, hnodup⟩ := iotaTour_facts _ _ hcur
  obtain ⟨i, j, hpick, hi0, hi1, hj0, hj1, hij⟩ := pickMove_valid L _ st.randCalls hn hrand
  obtain ⟨swapped, hswap, hperm, hback, hget⟩ :=
    swapAt_valid st.currentTour i j hi0 (by rw [hlen]; exact hi1) hj0 (by rw [hlen]; exact hj1)
  have hne : swapped ≠ st.currentTour := by
    intro h
    have h1 := hget 0
    rw [h] at h1
    have hi' : i.toNat < st.currentTour.length := by omega
    have hj' : j.toNat < st.currentTour.length := by omega
    rw [List.getD_eq_getElem _ _ hi', List.getD_eq_getElem _ _ hj'] at h1
    have := (List.Nodup.getElem_inj_iff hnodup).mp h1
    omega
  have hswne : swapped ≠ [] := by
    intro h
    have := hperm.length_eq
    rw [h, hlen] at this
    simp at this
    omega
  have hswval : ∀ a ∈ swapped, 0 ≤ a ∧ a < (s_points.length : Int) :=
    fun a ha => hval a (hperm.mem_iff.mp ha)
  have hdist := cal_Total_Dis_eq L.sqrt s_points swapped hswne hswval
  refine ⟨i, j, swapped, tourLengthSpec L.sqrt s_points swapped, ?_⟩
  simp only [annealBody, hpick, hswap, hdist, bind, Except.bind]
  by_cases hacc : accepts L (tourLengthSpec L.sqrt s_points swapped - st.currentDistance) st.temp
      (uniformDraw L (L.rand (st.randCalls + 2))) = true
  · by_cases hbest : tourLengthSpec L.sqrt s_points swapped < st.bestDistance
    · by_cases hit : Int.tmod iter 1000 = 0
      · simp [hacc, hbest, hit, hi0, hi1, hj0, hj1, hij, hperm, hne]
      · simp [hacc, hbest, hit, hi0, hi1, hj0, hj1, hij, hperm, hne]
    · by_cases hit : Int.tmod iter 1000 = 0
      · simp [hacc, hbest, hit, hi0, hi1, hj0, hj1, hij, hperm, hne]
      · simp [hacc, hbest, hit, hi0, hi1, hj0, hj1, hij, hperm, hne]
  · by_cases hit : Int.tmod iter 1000 = 0
    · simp [hacc, hback, hit, hi0, hi1, hj0, hj1, hij, hperm, hne]
    · simp [hacc, hback, hit, hi0, hi1, hj0, hj1, hij, hperm, hne]

end

theorem isTour_of_perm (n : Nat) (t : List Int) (h : List.Perm t (iotaTour (n : Int))) :
    IsTour n t := by
  obtain ⟨hlen, -, hnodup⟩ := iotaTour_facts n t h
  refine ⟨hlen, fun v hv => ?_⟩
  exact List.count_eq_one_of_mem hnodup (h.mem_iff.mpr hv)

section
variable {D : Type} [LinearOrderedField D]

theorem annealInit_run (L : Env D) (s_points : List Point) (initialTmp : D)
    (hn : 1 ≤ s_points.length)
    (hshuffle : List.Perm (L.shuffle (iotaTour (s_points.length : Int)))
      (iotaTour (s_points.length : Int))) :
    ∃ st, annealInit L s_points initialTmp = .ok st ∧
      st.currentTour = L.shuffle (iotaTour (s_points.length : Int)) ∧
      st.bestTour = st.currentTour ∧ st.bestDistance = st.currentDistance ∧
      cal_Total_Dis L.sqrt s_points st.currentTour = .ok st.currentDistance ∧
      st.temp = initialTmp ∧ st.randCalls = 0 := by
  obtain ⟨hlen, hval, -⟩ := iotaTour_facts _ _ hshuffle
  have hne : L.shuffle (iotaTour (s_points.length : Int)) ≠ [] := by
    intro h
    rw [h] at hlen
    simp at hlen
    omega
  have hdist := cal_Total_Dis_eq L.sqrt s_points _ hne hval
  simp [annealInit, hdist, bind, Except.bind]

theorem annealAfter_succ (L : Env D) (s_points : List Point) (initialTmp coolingRate : D)
    (k : Nat) :
    annealAfter L s_points initialTmp coolingRate (k + 1) =
      (annealAfter L s_points initialTmp coolingRate k >>= fun st =>
        annealBody L s_points (s_points.length : Int) coolingRate (k : Int) st) := by
  unfold annealAfter
  cases annealInit L s_points initialTmp <;> simp [annealIters, bind, Except.bind]

theorem annealBody_temp (L : Env D) (s_points : List Point) (numPoints : Int) (coolingRate : D)
    (iter : Int) (st st1 : AnnealState D)
    (h : annealBody L s_points numPoints coolingRate iter st = .ok st1) :
    st1.temp = st.temp * coolingRate := by
  unfold annealBody at h
  simp only [bind, Except.bind] at h
  repeat' split at h
  all_goals first
    | (cases h; rfl)
    | cases h

end

section
variable {D : Type} [LinearOrderedField D]

/-- Every initial part of the run of `simulateAnnealing` on at least two points completes, and
leaves both tours permutations of `0 .. n-1`. -/
theorem annealAfter_run (L : Env D) (s_points : List Point) (initialTmp coolingRate : D)
    (hn : 2 ≤ s_points.length)
    (hshuffle : List.Perm (L.shuffle (iotaTour (s_points.length : Int)))
      (iotaTour (s_points.length : Int)))
    (hrand : ∀ m, 0 ≤ L.rand m) (k : Nat) :
    ∃ st, annealAfter L s_points initialTmp coolingRate k = .ok st ∧
      List.Perm st.currentTour (iotaTour (s_points.length : Int)) ∧
      List.Perm st.bestTour (iotaTour (s_points.length : Int)) := by
  induction k with
  | zero =>
    obtain ⟨st, hst, hcur, hbest, -⟩ :=
      annealInit_run L s_points initialTmp (by omega) hshuffle
    refine ⟨st, ?_, ?_, ?_⟩
    · simp [annealAfter, hst, annealIters, bind, Except.bind]
    · rw [hcur]; exact hshuffle
    · rw [hbest, hcur]; exact hshuffle
  | succ k ih =>
    obtain ⟨st, hst, hcur, hbest⟩ := ih
    obtain ⟨i, j, swapped, nd, st1, -, -, -, hperm, -, -, hbody, -, hacc, hrej⟩ :=
      annealBody_run L s_points coolingRate (k : Int) st hn hrand hcur
    refine ⟨st1, ?_, ?_, ?_⟩
    · rw [annealAfter_succ, hst]; exact hbody
    · cases hdec : accepts L (nd - st.currentDistance) st.temp
          (uniformDraw L (L.rand (st.randCalls + 2)))
      · rw [(hrej hdec).1]; exact hcur
      · rw [(hacc hdec).1]; exact hperm.trans hcur
    · cases hdec : accepts L (nd - st.currentDistance) st.temp
          (uniformDraw L (L.rand (st.randCalls + 2)))
      · rw [(hrej hdec).2.2.1]; exact hbest
      · by_cases hlt : nd < st.bestDistance
        · rw [((hacc hdec).2.2.1 hlt).1]; exact hperm.trans hcur
        · rw [((hacc hdec).2.2.2 hlt).1]; exact hbest

/-- C1. Permutation invariant: on at least two points, whatever permutation the shuffle
produces and whatever values `rand()` returns, after every number `k` of loop iterations
`currentTour` and `bestTour` have length `n` and contain each of `0 .. n-1` exactly once, and
the tour returned by `simulateAnnealing` is such a permutation. -/
theorem simulateAnnealing_permutation (L : Env D) (s_points : List Point) (iteration : Int)
    (initialTmp coolingRate : D) (hn : 2 ≤ s_points.length)
    (hshuffle : List.Perm (L.shuffle (iotaTour (s_points.length : Int)))
      (iotaTour (s_points.length : Int)))
    (hrand : ∀ m, 0 ≤ L.rand m) :
    (∀ k : Nat, ∃ st, annealAfter L s_points initialTmp coolingRate k = .ok st ∧
      IsTour s_points.length st.currentTour ∧ IsTour s_points.length st.bestTour ∧
      List.Perm st.currentTour (iotaTour (s_points.length : Int)) ∧
      List.Perm st.bestTour (iotaTour (s_points.length : Int))) ∧
    ∃ tour, simulateAnnealing L s_points iteration initialTmp coolingRate = .ok tour ∧
      IsTour s_points.length tour ∧ List.Perm tour (iotaTour (s_points.length : Int)) := by
  constructor
  · intro k
    obtain ⟨st, hst, hcur, hbest⟩ :=
      annealAfter_run L s_points initialTmp coolingRate hn hshuffle hrand k
    exact ⟨st, hst, isTour_of_perm _ _ hcur, isTour_of_perm _ _ hbest, hcur, hbest⟩
  · obtain ⟨st, hst, -, hbest⟩ :=
      annealAfter_run L s_points initialTmp coolingRate hn hshuffle hrand iteration.toNat
    refine ⟨st.bestTour, ?_, isTour_of_perm _ _ hbest, hbest⟩
    simp [simulateAnnealing, hst, bind, Except.bind]

theorem simulateAnnealing_permutation_witness :
    ∃ tour, simulateAnnealing (⟨Real.sqrt, Real.exp, 2147483647, id, fun _ => 0⟩ : Env ℝ)
        [⟨0, 0, 1⟩, ⟨3, 4, 2⟩] 10000 1000 (4 / 5) = .ok tour ∧
      IsTour 2 tour ∧ List.Perm tour [0, 1] :=
  (simulateAnnealing_permutation (⟨Real.sqrt, Real.exp, 2147483647, id, fun _ => 0⟩ : Env ℝ)
    [⟨0, 0, 1⟩, ⟨3, 4, 2⟩] 10000 1000 (4 / 5) (by decide) (List.Perm.refl _)
    (fun _ => le_refl _)).2

/-- C2. Monotonic best: on at least two points, for every `k` the run reaches the states
after `k` and after `k+1` iterations, and `bestDistance` after iteration `k+1` is at most its
value after iteration `k`. -/
theorem bestDistance_nonincreasing (L : Env D) (s_points : List Point)
    (initialTmp coolingRate : D) (hn : 2 ≤ s_points.length)
    (hshuffle : List.Perm (L.shuffle (iotaTour (s_points.length : Int)))
      (iotaTour (s_points.length : Int)))
    (hrand : ∀ m, 0 ≤ L.rand m) (k : Nat) :
    ∃ st st1, annealAfter L s_points initialTmp coolingRate k = .ok st ∧
      annealAfter L s_points initialTmp coolingRate (k + 1) = .ok st1 ∧
      st1.bestDistance ≤ st.bestDistance := by
  obtain ⟨st, hst, hcur, -⟩ :=
    annealAfter_run L s_points initialTmp coolingRate hn hshuffle hrand k
  obtain ⟨i, j, swapped, nd, st1, -, -, -, -, -, -, hbody, -, hacc, hrej⟩ :=
    annealBody_run L s_points coolingRate (k : Int) st hn hrand hcur
  refine ⟨st, st1, hst, ?_, ?_⟩
  · rw [annealAfter_succ, hst]; exact hbody
  · cases hdec : accepts L (nd - st.currentDistance) st.temp
        (uniformDraw L (L.rand (st.randCalls + 2)))
    · exact le_of_eq (hrej hdec).2.2.2
    · by_cases hlt : nd < st.bestDistance
      · rw [((hacc hdec).2.2.1 hlt).2]; exact le_of_lt hlt
      · exact le_of_eq ((hacc hdec).2.2.2 hlt).2

theorem bestDistance_nonincreasing_witness :
    ∃ st st1 : AnnealState ℝ,
      annealAfter (⟨Real.sqrt, Real.exp, 2147483647, id, fun _ => 0⟩ : Env ℝ)
        [⟨0, 0, 1⟩, ⟨3, 4, 2⟩] 1000 (4 / 5) 7 = .ok st ∧
      annealAfter (⟨Real.sqrt, Real.exp, 2147483647, id, fun _ => 0⟩ : Env ℝ)
        [⟨0, 0, 1⟩, ⟨3, 4, 2⟩] 1000 (4 / 5) (7 + 1) = .ok st1 ∧
      st1.bestDistance ≤ st.bestDistance :=
  bestDistance_nonincreasing (⟨Real.sqrt, Real.exp, 2147483647, id, fun _ => 0⟩ : Env ℝ)
    [⟨0, 0, 1⟩, ⟨3, 4, 2⟩] 1000 (4 / 5) (by decide) (List.Perm.refl _) (fun _ => le_refl _) 7

end

/-! ## Cooling, rejection and acceptance -/

section
variable {D : Type} [LinearOrderedField D]

theorem accepts_eq_true_iff (L : Env D) (delta temp u : D) :
    accepts L delta temp u = true ↔ delta < 0 ∨ u < L.exp (-delta / temp) := by
  unfold accepts
  rw [Bool.or_eq_true, decide_eq_true_iff, decide_eq_true_iff]

theorem annealInit_temp (L : Env D) (s_points : List Point) (initialTmp : D)
    (st : AnnealState D) (h : annealInit L s_points initialTmp = .ok st) :
    st.temp = initialTmp := by
  unfold annealInit at h
  simp only [bind, Except.bind] at h
  split at h
  · cases h
  · cases h; rfl

theorem annealAfter_temp (L : Env D) (s_points : List Point) (initialTmp coolingRate : D) :
    ∀ (k : Nat) (st : AnnealState D),
      annealAfter L s_points initialTmp coolingRate k = .ok st →
      st.temp = initialTmp * coolingRate ^ k := by
  intro k
  induction k with
  | zero =>
    intro st h
    unfold annealAfter at h
    cases hinit : annealInit L s_points initialTmp with
    | error e => rw [hinit] at h; cases h
    | ok st0 =>
      rw [hinit] at h
      simp only [annealIters, bind, Except.bind] at h
      cases h
      rw [pow_zero, mul_one]
      exact annealInit_temp L s_points initialTmp _ hinit
  | succ k ih =>
    intro st h
    rw [annealAfter_succ] at h
    cases hk : annealAfter L s_points initialTmp coolingRate k with
    | error e => rw [hk] at h; cases h
    | ok st0 =>
      rw [hk] at h
      have := annealBody_temp L s_points _ coolingRate _ st0 st h
      rw [this, ih st0 hk, pow_succ, mul_assoc]

/-- C9. Cooling schedule: whenever `simulateAnnealing` has run `k` loop iterations, the
temperature it holds is `initialTmp * coolingRate ^ k`, whatever was accepted or rejected;
and on at least two points every number `k` of iterations is reached. -/
theorem cooling_schedule (L : Env D) (s_points : List Point) (initialTmp coolingRate : D)
    (k : Nat) :
    (∀ st, annealAfter L s_points initialTmp coolingRate k = .ok st →
      st.temp = initialTmp * coolingRate ^ k) ∧
    (2 ≤ s_points.length →
      List.Perm (L.shuffle (iotaTour (s_points.length : Int)))
        (iotaTour (s_points.length : Int)) →
      (∀ m, 0 ≤ L.rand m) →
      ∃ st, annealAfter L s_points initialTmp coolingRate k = .ok st ∧
        st.temp = initialTmp * coolingRate ^ k) := by
  refine ⟨annealAfter_temp L s_points initialTmp coolingRate k, fun hn hshuffle hrand => ?_⟩
  obtain ⟨st, hst, -⟩ := annealAfter_run L s_points initialTmp coolingRate hn hshuffle hrand k
  exact ⟨st, hst, annealAfter_temp L s_points initialTmp coolingRate k st hst⟩

theorem cooling_schedule_witness :
    ∃ st : AnnealState ℝ,
      annealAfter (⟨Real.sqrt, Real.exp, 2147483647, id, fun _ => 0⟩ : Env ℝ)
        [⟨0, 0, 1⟩, ⟨3, 4, 2⟩] 1000 (4 / 5) 3 = .ok st ∧
      st.temp = 1000 * (4 / 5) ^ 3 :=
  (cooling_schedule (⟨Real.sqrt, Real.exp, 2147483647, id, fun _ => 0⟩ : Env ℝ)
    [⟨0, 0, 1⟩, ⟨3, 4, 2⟩] 1000 (4 / 5) 3).2 (by decide) (List.Perm.refl _) (fun _ => le_refl _)

/-- C7. Rejection restores state: in an iteration on at least two points, started with a
current tour that is a permutation of `0 .. n-1`, the positions `i`, `j` are drawn, the swapped
tour and its length are computed and the iteration completes; if the proposal is not accepted,
`currentTour` afterwards equals `currentTour` before, element for element, and
`currentDistance` is unchanged. -/
theorem rejection_restores (L : Env D) (s_points : List Point) (coolingRate : D) (iter : Int)
    (st : AnnealState D) (hn : 2 ≤ s_points.length) (hrand : ∀ m, 0 ≤ L.rand m)
    (hcur : List.Perm st.currentTour (iotaTour (s_points.length : Int))) :
    ∃ (i j : Int) (swapped : List Int) (new_Distance : D) (st1 : AnnealState D),
      pickMove L (s_points.length : Int) st.randCalls = .ok (i, j) ∧
      swapAt st.currentTour i j = .ok swapped ∧
      cal_Total_Dis L.sqrt s_points swapped = .ok new_Distance ∧
      annealBody L s_points (s_points.length : Int) coolingRate iter st = .ok st1 ∧
      (accepts L (new_Distance - st.currentDistance) st.temp
          (uniformDraw L (L.rand (st.randCalls + 2))) = false →
        st1.currentTour = st.currentTour ∧ st1.currentDistance = st.currentDistance) := by
  obtain ⟨i, j, swapped, nd, st1, hpick, -, hswap, -, -, hdist, hbody, -, -, hrej⟩ :=
    annealBody_run L s_points coolingRate iter st hn hrand hcur
  exact ⟨i, j, swapped, nd, st1, hpick, hswap, hdist, hbody,
    fun h => ⟨(hrej h).1, (hrej h).2.1⟩⟩

theorem rejection_restores_witness :
    ∃ st1 : AnnealState ℝ,
      pickMove (⟨Real.sqrt, Real.exp, 2147483647, id, fun _ => 2147483647⟩ : Env ℝ) 2 0
        = .ok (1, 0) ∧
      swapAt ([1, 0] : List Int) 1 0 = .ok [0, 1] ∧
      cal_Total_Dis Real.sqrt [⟨0, 0, 1⟩, ⟨1, 0, 2⟩] [0, 1] = .ok 2 ∧
      annealBody (⟨Real.sqrt, Real.exp, 2147483647, id, fun _ => 2147483647⟩ : Env ℝ)
        [⟨0, 0, 1⟩, ⟨1, 0, 2⟩] 2 (4 / 5) 0 ⟨[1, 0], 2, [1, 0], 2, 1000, 0, []⟩ = .ok st1 ∧
      accepts (⟨Real.sqrt, Real.exp, 2147483647, id, fun _ => 2147483647⟩ : Env ℝ)
          (2 - 2) 1000
          (uniformDraw (⟨Real.sqrt, Real.exp, 2147483647, id, fun _ => 2147483647⟩ : Env ℝ)
            2147483647) = false ∧
      st1.currentTour = [1, 0] ∧ st1.currentDistance = 2 := by
  obtain ⟨i, j, swapped, nd, st1, hpick, hswap, hdist, hbody, hrej⟩ :=
    rejection_restores (⟨Real.sqrt, Real.exp, 2147483647, id, fun _ => 2147483647⟩ : Env ℝ)
      [⟨0, 0, 1⟩, ⟨1, 0, 2⟩] (4 / 5) 0 ⟨[1, 0], 2, [1, 0], 2, 1000, 0, []⟩ (by decide)
      (fun _ => by norm_num) (by decide)
  have hp : pickMove (⟨Real.sqrt, Real.exp, 2147483647, id, fun _ => 2147483647⟩ : Env ℝ) 2 0
      = .ok (1, 0) := by
    rfl
  have hs : swapAt ([1, 0] : List Int) 1 0 = .ok [0, 1] := by
    simp [swapAt, vecAt, bind, Except.bind]
  have e01 : cal_Euc_Dis Real.sqrt ⟨0, 0, 1⟩ ⟨1, 0, 2⟩ = 1 := by
    rw [cal_Euc_Dis_of_diff Real.sqrt ⟨0, 0, 1⟩ ⟨1, 0, 2⟩ (-1) 0 (by rfl) (by rfl) (by decide)
      (by decide)]
    norm_num
  have e10 : cal_Euc_Dis Real.sqrt ⟨1, 0, 2⟩ ⟨0, 0, 1⟩ = 1 := by
    rw [cal_Euc_Dis_of_diff Real.sqrt ⟨1, 0, 2⟩ ⟨0, 0, 1⟩ 1 0 (by rfl) (by rfl) (by decide)
      (by decide)]
    norm_num
  have hd : cal_Total_Dis Real.sqrt [⟨0, 0, 1⟩, ⟨1, 0, 2⟩] [0, 1] = .ok 2 := by
    simp only [cal_Total_Dis, cal_Total_Dis_loop, sizeMinusOne, vecAt, bind, Except.bind]
    simp [e01, e10]
    norm_num
  have hi : i = 1 ∧ j = 0 := by
    have h := hpick.symm.trans hp
    injection h with h
    injection h with h1 h2
    exact ⟨h1, h2⟩
  obtain ⟨hi1, hj0⟩ := hi
  subst hi1 hj0
  have hsw : swapped = [0, 1] := by
    have h := hswap.symm.trans hs
    injection h
  subst hsw
  have hnd : nd = 2 := by
    have h := hdist.symm.trans hd
    injection h
  subst hnd
  have hacc : accepts (⟨Real.sqrt, Real.exp, 2147483647, id, fun _ => 2147483647⟩ : Env ℝ)
      (2 - 2) 1000
      (uniformDraw (⟨Real.sqrt, Real.exp, 2147483647, id, fun _ => 2147483647⟩ : Env ℝ)
        2147483647) = false := by
    simp [accepts, uniformDraw]
  exact ⟨st1, hp, hs, hd, hbody, hacc, hrej hacc⟩

/-- C8. Acceptance rule: in an iteration on at least two points at a temperature `temp > 0`,
with `delta = new_Distance - currentDistance` and `u` the draw `rand()/RAND_MAX`: if `delta < 0` the
swap is accepted (the swapped tour and its length become current) whatever `u` is; if
`delta ≥ 0` it is accepted exactly when `u < exp(-delta/temp)`, with `temp` the temperature held
when the iteration starts, which is cooled only afterwards. -/
theorem acceptance_rule (L : Env D) (s_points : List Point) (coolingRate : D) (iter : Int)
    (st : AnnealState D) (hn : 2 ≤ s_points.length) (hrand : ∀ m, 0 ≤ L.rand m)
    (hcur : List.Perm st.currentTour (iotaTour (s_points.length : Int)))
    (_htemp : 0 < st.temp) :
    ∃ (i j : Int) (swapped : List Int) (new_Distance : D) (st1 : AnnealState D),
      pickMove L (s_points.length : Int) st.randCalls = .ok (i, j) ∧
      swapAt st.currentTour i j = .ok swapped ∧
      cal_Total_Dis L.sqrt s_points swapped = .ok new_Distance ∧
      annealBody L s_points (s_points.length : Int) coolingRate iter st = .ok st1 ∧
      (new_Distance - st.currentDistance < 0 →
        st1.currentTour = swapped ∧ st1.currentDistance = new_Distance) ∧
      (0 ≤ new_Distance - st.currentDistance →
        ((st1.currentTour = swapped ∧ st1.currentDistance = new_Distance) ↔
          uniformDraw L (L.rand (st.randCalls + 2))
            < L.exp (-(new_Distance - st.currentDistance) / st.temp))) ∧
      (st1.currentTour ≠ swapped →
        st1.currentTour = st.currentTour ∧ st1.currentDistance = st.currentDistance) ∧
      st1.temp = st.temp * coolingRate := by
  obtain ⟨i, j, swapped, nd, st1, hpick, -, hswap, -, hne, hdist, hbody, htemp, hacc, hrej⟩ :=
    annealBody_run L s_points coolingRate iter st hn hrand hcur
  refine ⟨i, j, swapped, nd, st1, hpick, hswap, hdist, hbody, ?_, ?_, ?_, htemp⟩
  · intro hneg
    have h := hacc ((accepts_eq_true_iff L _ _ _).mpr (Or.inl hneg))
    exact ⟨h.1, h.2.1⟩
  · intro hnn
    constructor
    · intro hst1
      by_contra hu
      have h := hrej (Bool.eq_false_iff.mpr (fun ht =>
        ((accepts_eq_true_iff L _ _ _).mp ht).elim (fun hlt => not_lt.mpr hnn hlt) hu))
      exact hne (hst1.1.symm.trans h.1)
    · intro hu
      have h := hacc ((accepts_eq_true_iff L _ _ _).mpr (Or.inr hu))
      exact ⟨h.1, h.2.1⟩
  · intro hns
    cases hdec : accepts L (nd - st.currentDistance) st.temp
        (uniformDraw L (L.rand (st.randCalls + 2)))
    · exact ⟨(hrej hdec).1, (hrej hdec).2.1⟩
    · exact absurd (hacc hdec).1 hns

theorem acceptance_rule_witness :
    ∃ (swapped : List Int) (new_Distance : ℝ) (st1 : AnnealState ℝ),
      annealBody (⟨Real.sqrt, Real.exp, 2147483647, id, fun _ => 0⟩ : Env ℝ)
        [⟨0, 0, 1⟩, ⟨3, 4, 2⟩] 2 (4 / 5) 0 ⟨[1, 0], 10, [1, 0], 10, 1000, 0, []⟩ = .ok st1 ∧
      (new_Distance - 10 < 0 → st1.currentTour = swapped ∧ st1.currentDistance = new_Distance) ∧
      (0 ≤ new_Distance - 10 →
        ((st1.currentTour = swapped ∧ st1.currentDistance = new_Distance) ↔
          uniformDraw (⟨Real.sqrt, Real.exp, 2147483647, id, fun _ => 0⟩ : Env ℝ) 0
            < Real.exp (-(new_Distance - 10) / 1000))) ∧
      st1.temp = 1000 * (4 / 5) := by
  obtain ⟨i, j, swapped, nd, st1, -, -, -, hbody, hneg, hnn, -, htemp⟩ :=
    acceptance_rule (⟨Real.sqrt, Real.exp, 2147483647, id, fun _ => 0⟩ : Env ℝ)
      [⟨0, 0, 1⟩, ⟨3, 4, 2⟩] (4 / 5) 0 ⟨[1, 0], 10, [1, 0], 10, 1000, 0, []⟩ (by decide)
      (fun _ => le_refl _) (by decide) (by norm_num)
  exact ⟨swapped, nd, st1, hbody, hneg, hnn, htemp⟩

end

/-! ## The single-point run and the export -/

section
variable {D : Type} [LinearOrderedField D]

/-- With a single point the second remainder of the loop body has divisor `numPoints-1 = 0`. -/
theorem annealBody_single_point (L : Env D) (s_points : List Point) (coolingRate : D)
    (iter : Int) (st : AnnealState D) :
    annealBody L s_points 1 coolingRate iter st = .error .divByZero := by
  simp [annealBody, pickMove, cmod, bind, Except.bind]

/-- C6. Degenerate N=1, as the code behaves: with exactly one point and an iteration budget of
at least 1, `simulateAnnealing` does not return a tour; its first loop iteration evaluates
`rand() % (numPoints-1)` with `numPoints-1 = 0`, a remainder by zero. -/
theorem simulateAnnealing_single_point (L : Env D) (p : Point) (iteration : Int)
    (initialTmp coolingRate : D) (hiter : 1 ≤ iteration)
    (hshuffle : List.Perm (L.shuffle (iotaTour 1)) (iotaTour 1)) :
    simulateAnnealing L [p] iteration initialTmp coolingRate = .error .divByZero := by
  obtain ⟨st0, hst0, -⟩ := annealInit_run L [p] initialTmp (by simp) (by simpa using hshuffle)
  have hall : ∀ k : Nat,
      annealAfter L [p] initialTmp coolingRate (k + 1) = .error .divByZero := by
    intro k
    induction k with
    | zero =>
      have h0 : annealAfter L [p] initialTmp coolingRate 0 = .ok st0 := by
        simp [annealAfter, hst0, annealIters, bind, Except.bind]
      rw [annealAfter_succ, h0]
      simp only [bind, Except.bind, List.length_singleton, Nat.cast_one]
      exact annealBody_single_point L [p] coolingRate _ st0
    | succ k ih =>
      rw [annealAfter_succ, ih]
      rfl
  obtain ⟨k, hk⟩ : ∃ k : Nat, iteration.toNat = k + 1 := ⟨iteration.toNat - 1, by omega⟩
  simp [simulateAnnealing, hk, hall k, bind, Except.bind]

theorem simulateAnnealing_single_point_witness :
    simulateAnnealing (⟨Real.sqrt, Real.exp, 2147483647, id, fun _ => 0⟩ : Env ℝ)
      [⟨0, 0, 1⟩] 10000 1000 (4 / 5) = .error .divByZero :=
  simulateAnnealing_single_point _ _ _ _ _ (by decide) (List.Perm.refl _)

end

/-- C10. Export row contents, as the code behaves: for the points `(1,10,20)` and `(2,30,40)`
(label, x, y), the row written for tour entry 1 is `2,30,20`, carrying the `y` of the point at
position 0 instead of `2,30,40`; and on the permutation tour `[1,0]` the row for entry 0 reads
`s_points[-1]`, outside the vector. -/
theorem exportTourtoCSV_row_reads_neighbour :
    exportRow [{ index := 1, x := 10, y := 20 }, { index := 2, x := 30, y := 40 }] 1
      = .ok "2,30,20" ∧
    exportTourtoCSV [{ index := 1, x := 10, y := 20 }, { index := 2, x := 30, y := 40 }]
      [1, 0] true = .error .outOfRange := by
  constructor <;> rfl

/-! ## Distances -/

/-- C3. `cal_Total_Dis` equals its reference definition: on every non-empty tour whose entries
are valid positions it returns the sum of the distances between consecutive tour positions
plus the closing edge from the last position to the first; on a one-element tour it
returns 0. -/
theorem cal_Total_Dis_spec (s_points : List Point) (tour : List Int) (hne : tour ≠ [])
    (hvalid : ∀ a ∈ tour, 0 ≤ a ∧ a < (s_points.length : Int)) :
    cal_Total_Dis Real.sqrt s_points tour = .ok (tourLengthSpec Real.sqrt s_points tour) ∧
    (tour.length = 1 → cal_Total_Dis Real.sqrt s_points tour = .ok 0) := by
  have h := cal_Total_Dis_eq Real.sqrt s_points tour hne hvalid
  refine ⟨h, fun h1 => ?_⟩
  rw [h]
  simp [tourLengthSpec, h1, cal_Euc_Dis, wrapInt32_zero]

theorem cal_Total_Dis_spec_witness :
    cal_Total_Dis Real.sqrt [⟨3, 4, 7⟩, ⟨0, 0, 9⟩] [1, 0]
        = .ok (tourLengthSpec Real.sqrt [⟨3, 4, 7⟩, ⟨0, 0, 9⟩] [1, 0]) ∧
    cal_Total_Dis Real.sqrt [⟨3, 4, 7⟩] [0] = .ok 0 :=
  ⟨(cal_Total_Dis_spec [⟨3, 4, 7⟩, ⟨0, 0, 9⟩] [1, 0] (by decide) (by decide)).1,
   (cal_Total_Dis_spec [⟨3, 4, 7⟩] [0] (by decide) (by decide)).2 rfl⟩

/-- C4. Unit square: for the points (0,0), (1,0), (1,1), (0,1), with any labels, the natural
cyclic order `[0,1,2,3]` has length exactly 4 and the crossing order `[0,2,1,3]` has a length
strictly greater than 4. -/
theorem unit_square_tours (a b c d : Int) :
    cal_Total_Dis Real.sqrt [⟨0, 0, a⟩, ⟨1, 0, b⟩, ⟨1, 1, c⟩, ⟨0, 1, d⟩] [0, 1, 2, 3] = .ok 4 ∧
    ∃ len : ℝ,
      cal_Total_Dis Real.sqrt [⟨0, 0, a⟩, ⟨1, 0, b⟩, ⟨1, 1, c⟩, ⟨0, 1, d⟩] [0, 2, 1, 3] = .ok len ∧
      4 < len := by
  have e01 : cal_Euc_Dis Real.sqrt ⟨0, 0, a⟩ ⟨1, 0, b⟩ = 1 := by
    rw [cal_Euc_Dis_of_diff Real.sqrt ⟨0, 0, a⟩ ⟨1, 0, b⟩ (-1) 0 (by rfl) (by rfl) (by decide)
      (by decide)]
    norm_num
  have e12 : cal_Euc_Dis Real.sqrt ⟨1, 0, b⟩ ⟨1, 1, c⟩ = 1 := by
    rw [cal_Euc_Dis_of_diff Real.sqrt ⟨1, 0, b⟩ ⟨1, 1, c⟩ 0 (-1) (by rfl) (by rfl) (by decide)
      (by decide)]
    norm_num
  have e23 : cal_Euc_Dis Real.sqrt ⟨1, 1, c⟩ ⟨0, 1, d⟩ = 1 := by
    rw [cal_Euc_Dis_of_diff Real.sqrt ⟨1, 1, c⟩ ⟨0, 1, d⟩ 1 0 (by rfl) (by rfl) (by decide)
      (by decide)]
    norm_num
  have e30 : cal_Euc_Dis Real.sqrt ⟨0, 1, d⟩ ⟨0, 0, a⟩ = 1 := by
    rw [cal_Euc_Dis_of_diff Real.sqrt ⟨0, 1, d⟩ ⟨0, 0, a⟩ 0 1 (by rfl) (by rfl) (by decide)
      (by decide)]
    norm_num
  have e02 : cal_Euc_Dis Real.sqrt ⟨0, 0, a⟩ ⟨1, 1, c⟩ = Real.sqrt 2 := by
    rw [cal_Euc_Dis_of_diff Real.sqrt ⟨0, 0, a⟩ ⟨1, 1, c⟩ (-1) (-1) (by rfl) (by rfl) (by decide)
      (by decide)]
    norm_num
  have e21 : cal_Euc_Dis Real.sqrt ⟨1, 1, c⟩ ⟨1, 0, b⟩ = 1 := by
    rw [cal_Euc_Dis_of_diff Real.sqrt ⟨1, 1, c⟩ ⟨1, 0, b⟩ 0 1 (by rfl) (by rfl) (by decide)
      (by decide)]
    norm_num
  have e13 : cal_Euc_Dis Real.sqrt ⟨1, 0, b⟩ ⟨0, 1, d⟩ = Real.sqrt 2 := by
    rw [cal_Euc_Dis_of_diff Real.sqrt ⟨1, 0, b⟩ ⟨0, 1, d⟩ 1 (-1) (by rfl) (by rfl) (by decide)
      (by decide)]
    norm_num
  constructor
  · simp only [cal_Total_Dis, cal_Total_Dis_loop, sizeMinusOne, vecAt, bind, Except.bind]
    simp [e01, e12, e23, e30]
    norm_num
  · refine ⟨Real.sqrt 2 + 1 + Real.sqrt 2 + 1, ?_, ?_⟩
    · simp only [cal_Total_Dis, cal_Total_Dis_loop, sizeMinusOne, vecAt, bind, Except.bind]
      simp [e02, e21, e13, e30]
    · have : (1 : ℝ) < Real.sqrt 2 := by
        rw [Real.lt_sqrt (by norm_num)]; norm_num
      linarith

/-! ## Tracked distances and the best tour -/

section
variable {D : Type} [LinearOrderedField D]

/-- The state after `k` iterations on at least two points: both tours are permutations, the
tracked distances are the lengths of the tours, and `bestDistance` is the least of the values
`currentDistance` has held so far. -/
theorem annealAfter_tracked (L : Env D) (s_points : List Point) (initialTmp coolingRate : D)
    (hn : 2 ≤ s_points.length)
    (hshuffle : List.Perm (L.shuffle (iotaTour (s_points.length : Int)))
      (iotaTour (s_points.length : Int)))
    (hrand : ∀ m, 0 ≤ L.rand m) (k : Nat) :
    ∃ st, annealAfter L s_points initialTmp coolingRate k = .ok st ∧
      List.Perm st.currentTour (iotaTour (s_points.length : Int)) ∧
      cal_Total_Dis L.sqrt s_points st.currentTour = .ok st.currentDistance ∧
      cal_Total_Dis L.sqrt s_points st.bestTour = .ok st.bestDistance ∧
      st.bestDistance ≤ st.currentDistance ∧
      (∀ j ≤ k, ∀ stj, annealAfter L s_points initialTmp coolingRate j = .ok stj →
        st.bestDistance ≤ stj.currentDistance) ∧
      (∃ j ≤ k, ∃ stj, annealAfter L s_points initialTmp coolingRate j = .ok stj ∧
        st.bestDistance = stj.currentDistance) := by
  induction k with
  | zero =>
    obtain ⟨st, hst, hcur, hbest, hbd, hdist, -⟩ :=
      annealInit_run L s_points initialTmp (by omega) hshuffle
    have h0 : annealAfter L s_points initialTmp coolingRate 0 = .ok st := by
      simp [annealAfter, hst, annealIters, bind, Except.bind]
    refine ⟨st, h0, ?_, hdist, ?_, le_of_eq hbd, ?_, ⟨0, le_refl _, st, h0, hbd⟩⟩
    · rw [hcur]; exact hshuffle
    · rw [hbest, hbd]; exact hdist
    · intro j hj stj hstj
      have hj0 : j = 0 := by omega
      subst hj0
      rw [h0] at hstj
      cases hstj
      exact le_of_eq hbd
  | succ k ih =>
    obtain ⟨st, hst, hcur, hcd, hbdist, hle, hlow, j0, hj0, stj0, hstj0, hatt⟩ := ih
    obtain ⟨i, j, swapped, nd, st1, -, -, -, hperm, -, hdist, hbody, -, hacc, hrej⟩ :=
      annealBody_run L s_points coolingRate (k : Int) st hn hrand hcur
    have hst1 : annealAfter L s_points initialTmp coolingRate (k + 1) = .ok st1 := by
      rw [annealAfter_succ, hst]; exact hbody
    have hlow1 : ∀ (b : D), b ≤ st.bestDistance → b ≤ st1.currentDistance →
        ∀ j ≤ k + 1, ∀ stj, annealAfter L s_points initialTmp coolingRate j = .ok stj →
          b ≤ stj.currentDistance := by
      intro b hb1 hb2 j hj stj hstj
      by_cases hjk : j ≤ k
      · exact le_trans hb1 (hlow j hjk stj hstj)
      · have hjk1 : j = k + 1 := by omega
        subst hjk1
        rw [hst1] at hstj
        cases hstj
        exact hb2
    cases hdec : accepts L (nd - st.currentDistance) st.temp
        (uniformDraw L (L.rand (st.randCalls + 2)))
    · obtain ⟨h1, h2, h3, h4⟩ := hrej hdec
      refine ⟨st1, hst1, ?_, ?_, ?_, ?_, ?_, ?_⟩
      · rw [h1]; exact hcur
      · rw [h1, h2]; exact hcd
      · rw [h3, h4]; exact hbdist
      · rw [h2, h4]; exact hle
      · rw [h4]; exact hlow1 _ (le_refl _) (by rw [h2]; exact hle)
      · rw [h4]; exact ⟨j0, by omega, stj0, hstj0, hatt⟩
    · obtain ⟨h1, h2, h3, h4⟩ := hacc hdec
      by_cases hlt : nd < st.bestDistance
      · obtain ⟨h5, h6⟩ := h3 hlt
        refine ⟨st1, hst1, ?_, ?_, ?_, ?_, ?_, ?_⟩
        · rw [h1]; exact hperm.trans hcur
        · rw [h1, h2]; exact hdist
        · rw [h5, h6]; exact hdist
        · rw [h2, h6]
        · rw [h6]; exact hlow1 _ (le_of_lt hlt) (by rw [h2])
        · exact ⟨k + 1, le_refl _, st1, hst1, by rw [h6, h2]⟩
      · obtain ⟨h5, h6⟩ := h4 hlt
        refine ⟨st1, hst1, ?_, ?_, ?_, ?_, ?_, ?_⟩
        · rw [h1]; exact hperm.trans hcur
        · rw [h1, h2]; exact hdist
        · rw [h5, h6]; exact hbdist
        · rw [h2, h6]; exact not_lt.mp hlt
        · rw [h6]; exact hlow1 _ (le_refl _) (by rw [h2]; exact not_lt.mp hlt)
        · rw [h6]; exact ⟨j0, by omega, stj0, hstj0, hatt⟩

end

/-! ## Move selection and the acceptance draw -/

theorem pickMove_eq {D : Type} (L : Env D) (n : Nat) (calls : Nat) (hn : 2 ≤ n)
    (hrand : ∀ m, 0 ≤ L.rand m) :
    pickMove L (n : Int) calls =
      .ok (L.rand calls % (n : Int),
        (L.rand calls % (n : Int) + 1 + L.rand (calls + 1) % ((n : Int) - 1)) % (n : Int)) := by
  have hn0 : (n : Int) ≠ 0 := by omega
  have hn1 : (n : Int) - 1 ≠ 0 := by omega
  have hi0 : 0 ≤ (L.rand calls) % (n : Int) := Int.emod_nonneg _ hn0
  have hr0 : 0 ≤ (L.rand (calls + 1)) % ((n : Int) - 1) := Int.emod_nonneg _ hn1
  simp only [pickMove, cmod, if_neg hn0, if_neg hn1, bind, Except.bind]
  rw [Int.tmod_eq_emod (hrand _) (by omega), Int.tmod_eq_emod (hrand _) (by omega),
    Int.tmod_eq_emod (by omega) (by omega)]

theorem shifted_mod_eq (n i k : Int) (hi0 : 0 ≤ i) (hi : i < n) (hk0 : 0 ≤ k) (hk : k ≤ n - 2) :
    ((i + 1 + k < n) ∧ (i + 1 + k) % n = i + 1 + k) ∨
    ((n ≤ i + 1 + k) ∧ (i + 1 + k) % n = i + 1 + k - n) := by
  by_cases hlt : i + 1 + k < n
  · exact Or.inl ⟨hlt, Int.emod_eq_of_lt (by omega) hlt⟩
  · refine Or.inr ⟨by omega, ?_⟩
    have e : i + 1 + k = (i + 1 + k - n) + n := by ring
    rw [e, Int.add_emod_self, ← e]
    exact Int.emod_eq_of_lt (by omega) (by omega)

/-- C13. Move selection: for `n ≥ 2` points and non-negative `rand()` results, the loop body
draws `i = rand() % n` and `j = (i + 1 + rand() % (n-1)) % n` with `0 ≤ j < n` and `j ≠ i`;
and for a fixed `i` the map `k ↦ (i + 1 + k) % n` on `0 ≤ k ≤ n-2` is injective and reaches
every position other than `i`. -/
theorem move_selection {D : Type} (L : Env D) (n : Nat) (calls : Nat) (hn : 2 ≤ n)
    (hrand : ∀ m, 0 ≤ L.rand m) :
    (∃ i j : Int, pickMove L (n : Int) calls = .ok (i, j) ∧
      i = L.rand calls % (n : Int) ∧
      j = (i + 1 + L.rand (calls + 1) % ((n : Int) - 1)) % (n : Int) ∧
      0 ≤ i ∧ i < (n : Int) ∧ 0 ≤ j ∧ j < (n : Int) ∧ j ≠ i) ∧
    (∀ i k1 k2 : Int, 0 ≤ i → i < (n : Int) → 0 ≤ k1 → k1 ≤ (n : Int) - 2 → 0 ≤ k2 →
      k2 ≤ (n : Int) - 2 → (i + 1 + k1) % (n : Int) = (i + 1 + k2) % (n : Int) → k1 = k2) ∧
    (∀ i j : Int, 0 ≤ i → i < (n : Int) → 0 ≤ j → j < (n : Int) → j ≠ i →
      ∃ k : Int, 0 ≤ k ∧ k ≤ (n : Int) - 2 ∧ (i + 1 + k) % (n : Int) = j) := by
  refine ⟨?_, ?_, ?_⟩
  · obtain ⟨i, j, hpick, hi0, hi1, hj0, hj1, hij⟩ := pickMove_valid L n calls hn hrand
    have heq := pickMove_eq L n calls hn hrand
    rw [hpick] at heq
    injection heq with heq
    injection heq with h1 h2
    refine ⟨i, j, hpick, h1, ?_, hi0, hi1, hj0, hj1, fun h => hij h.symm⟩
    rw [h2, h1]
  · intro i k1 k2 hi0 hi hk10 hk1 hk20 hk2 heq
    rcases shifted_mod_eq n i k1 hi0 hi hk10 hk1 with ⟨-, e1⟩ | ⟨-, e1⟩ <;>
    rcases shifted_mod_eq n i k2 hi0 hi hk20 hk2 with ⟨-, e2⟩ | ⟨-, e2⟩ <;>
    · rw [e1, e2] at heq; omega
  · intro i j hi0 hi hj0 hj hij
    by_cases hlt : i < j
    · refine ⟨j - i - 1, by omega, by omega, ?_⟩
      rcases shifted_mod_eq n i (j - i - 1) hi0 hi (by omega) (by omega) with ⟨-, e⟩ | ⟨h, -⟩
      · rw [e]; ring
      · omega
    · refine ⟨j - i - 1 + n, by omega, by omega, ?_⟩
      rcases shifted_mod_eq n i (j - i - 1 + n) hi0 hi (by omega) (by omega) with
        ⟨h, -⟩ | ⟨-, e⟩
      · omega
      · rw [e]; ring

theorem move_selection_witness :
    ∃ i j : Int, pickMove (⟨Real.sqrt, Real.exp, 2147483647, id, fun m => 7 * m + 3⟩ : Env ℝ)
        5 0 = .ok (i, j) ∧ 0 ≤ j ∧ j < 5 ∧ j ≠ i := by
  obtain ⟨i, j, h, -, -, -, -, h1, h2, h3⟩ :=
    (move_selection (⟨Real.sqrt, Real.exp, 2147483647, id, fun m => 7 * m + 3⟩ : Env ℝ) 5 0
      (by decide) (fun m => by positivity)).1
  exact ⟨i, j, h, h1, h2, h3⟩

section
variable {D : Type} [LinearOrderedField D]

/-- C14, as the code behaves: for `RAND_MAX > 0` and a `rand()` result `0 ≤ r ≤ RAND_MAX`, the
draw `r / RAND_MAX` lies in the closed interval `[0, 1]`; it is below 1 exactly when
`r < RAND_MAX`. -/
theorem uniformDraw_range (L : Env D) (r : Int) (hmax : 0 < L.RAND_MAX) (h0 : 0 ≤ r)
    (h1 : r ≤ L.RAND_MAX) :
    0 ≤ uniformDraw L r ∧ uniformDraw L r ≤ 1 ∧ (uniformDraw L r < 1 ↔ r < L.RAND_MAX) := by
  have hpos : (0 : D) < (L.RAND_MAX : D) := by exact_mod_cast hmax
  unfold uniformDraw
  refine ⟨div_nonneg (by exact_mod_cast h0) (le_of_lt hpos), ?_, ?_⟩
  · rw [div_le_one hpos]; exact_mod_cast h1
  · rw [div_lt_one hpos]; exact_mod_cast Iff.rfl

end

theorem uniformDraw_range_witness :
    0 ≤ uniformDraw (⟨Real.sqrt, Real.exp, 2147483647, id, fun _ => 0⟩ : Env ℝ) 5 ∧
    uniformDraw (⟨Real.sqrt, Real.exp, 2147483647, id, fun _ => 0⟩ : Env ℝ) 5 ≤ 1 ∧
    (uniformDraw (⟨Real.sqrt, Real.exp, 2147483647, id, fun _ => 0⟩ : Env ℝ) 5 < 1 ↔
      (5 : Int) < 2147483647) :=
  uniformDraw_range (⟨Real.sqrt, Real.exp, 2147483647, id, fun _ => 0⟩ : Env ℝ) 5
    (by decide) (by decide) (by decide)

/-- C14 as stated fails: the `rand()` result `r = RAND_MAX` gives the draw 1, which is not
strictly less than 1. -/
theorem uniformDraw_reaches_one :
    (0 : Int) ≤ 2147483647 ∧
    (2147483647 : Int) ≤ (⟨Real.sqrt, Real.exp, 2147483647, id, fun _ => 0⟩ : Env ℝ).RAND_MAX ∧
    ¬ (0 ≤ uniformDraw (⟨Real.sqrt, Real.exp, 2147483647, id, fun _ => 0⟩ : Env ℝ) 2147483647 ∧
       uniformDraw (⟨Real.sqrt, Real.exp, 2147483647, id, fun _ => 0⟩ : Env ℝ) 2147483647 < 1) := by
  refine ⟨by decide, by decide, ?_⟩
  intro h
  have h1 := h.2
  simp [uniformDraw] at h1

/-! ## Best tour, tracked distances and temperature along a run -/

section
variable {D : Type} [LinearOrderedField D]

/-- C15. Best is changed only by a strictly improving accepted move: in an iteration on at
least two points, if the proposal is rejected, or accepted with
`new_Distance ≥ bestDistance`, then `bestTour` and `bestDistance` keep their values; if it is
accepted with `new_Distance < bestDistance`, then `bestTour` becomes the swapped current tour
and `bestDistance` becomes `new_Distance`. -/
theorem best_changes_only_on_improvement (L : Env D) (s_points : List Point) (coolingRate : D)
    (iter : Int) (st : AnnealState D) (hn : 2 ≤ s_points.length) (hrand : ∀ m, 0 ≤ L.rand m)
    (hcur : List.Perm st.currentTour (iotaTour (s_points.length : Int))) :
    ∃ (i j : Int) (swapped : List Int) (new_Distance : D) (st1 : AnnealState D),
      pickMove L (s_points.length : Int) st.randCalls = .ok (i, j) ∧
      swapAt st.currentTour i j = .ok swapped ∧
      cal_Total_Dis L.sqrt s_points swapped = .ok new_Distance ∧
      annealBody L s_points (s_points.length : Int) coolingRate iter st = .ok st1 ∧
      (accepts L (new_Distance - st.currentDistance) st.temp
          (uniformDraw L (L.rand (st.randCalls + 2))) = false →
        st1.bestTour = st.bestTour ∧ st1.bestDistance = st.bestDistance) ∧
      (accepts L (new_Distance - st.currentDistance) st.temp
          (uniformDraw L (L.rand (st.randCalls + 2))) = true →
        st.bestDistance ≤ new_Distance →
        st1.bestTour = st.bestTour ∧ st1.bestDistance = st.bestDistance) ∧
      (accepts L (new_Distance - st.currentDistance) st.temp
          (uniformDraw L (L.rand (st.randCalls + 2))) = true →
        new_Distance < st.bestDistance →
        st1.bestTour = swapped ∧ st1.currentTour = swapped ∧
        st1.bestDistance = new_Distance) := by
  obtain ⟨i, j, swapped, nd, st1, hpick, -, hswap, -, -, hdist, hbody, -, hacc, hrej⟩ :=
    annealBody_run L s_points coolingRate iter st hn hrand hcur
  refine ⟨i, j, swapped, nd, st1, hpick, hswap, hdist, hbody, ?_, ?_, ?_⟩
  · intro h; exact ⟨(hrej h).2.2.1, (hrej h).2.2.2⟩
  · intro h hge; exact (hacc h).2.2.2 (not_lt.mpr hge)
  · intro h hlt
    exact ⟨((hacc h).2.2.1 hlt).1, (hacc h).1, ((hacc h).2.2.1 hlt).2⟩

/-- C16. Tracked distances stay consistent with the tours: on at least two points, after
initialisation (`k = 0`) and after every iteration, `currentDistance` is the value of
`cal_Total_Dis` on `currentTour` and `bestDistance` its value on `bestTour`; so
`cal_Total_Dis` on the returned tour, which `main` prints, is the tracked `bestDistance`. -/
theorem distances_tracked (L : Env D) (s_points : List Point) (iteration : Int)
    (initialTmp coolingRate : D) (hn : 2 ≤ s_points.length)
    (hshuffle : List.Perm (L.shuffle (iotaTour (s_points.length : Int)))
      (iotaTour (s_points.length : Int)))
    (hrand : ∀ m, 0 ≤ L.rand m) :
    (∀ k : Nat, ∃ st, annealAfter L s_points initialTmp coolingRate k = .ok st ∧
      cal_Total_Dis L.sqrt s_points st.currentTour = .ok st.currentDistance ∧
      cal_Total_Dis L.sqrt s_points st.bestTour = .ok st.bestDistance) ∧
    ∃ st tour, annealAfter L s_points initialTmp coolingRate iteration.toNat = .ok st ∧
      simulateAnnealing L s_points iteration initialTmp coolingRate = .ok tour ∧
      cal_Total_Dis L.sqrt s_points tour = .ok st.bestDistance := by
  constructor
  · intro k
    obtain ⟨st, hst, -, hc, hb, -⟩ :=
      annealAfter_tracked L s_points initialTmp coolingRate hn hshuffle hrand k
    exact ⟨st, hst, hc, hb⟩
  · obtain ⟨st, hst, -, -, hb, -⟩ :=
      annealAfter_tracked L s_points initialTmp coolingRate hn hshuffle hrand iteration.toNat
    refine ⟨st, st.bestTour, hst, ?_, hb⟩
    simp [simulateAnnealing, hst, bind, Except.bind]

/-- C17. Temperature never reaches zero: for `initialTmp > 0` and `0 < coolingRate < 1`, on at
least two points, the temperature held when iteration `k` starts (the divisor in
`exp(-delta/temp)`) is strictly positive, and the temperature of the next iteration is
strictly positive and strictly smaller. -/
theorem temperature_positive_decreasing (L : Env D) (s_points : List Point)
    (initialTmp coolingRate : D) (hn : 2 ≤ s_points.length)
    (hshuffle : List.Perm (L.shuffle (iotaTour (s_points.length : Int)))
      (iotaTour (s_points.length : Int)))
    (hrand : ∀ m, 0 ≤ L.rand m) (hT : 0 < initialTmp) (hc0 : 0 < coolingRate)
    (hc1 : coolingRate < 1) (k : Nat) :
    ∃ st st1, annealAfter L s_points initialTmp coolingRate k = .ok st ∧
      annealAfter L s_points initialTmp coolingRate (k + 1) = .ok st1 ∧
      0 < st.temp ∧ 0 < st1.temp ∧ st1.temp < st.temp := by
  obtain ⟨st, hst, -⟩ := annealAfter_run L s_points initialTmp coolingRate hn hshuffle hrand k
  obtain ⟨st1, hst1, -⟩ :=
    annealAfter_run L s_points initialTmp coolingRate hn hshuffle hrand (k + 1)
  have e := annealAfter_temp L s_points initialTmp coolingRate k st hst
  have e1 := annealAfter_temp L s_points initialTmp coolingRate (k + 1) st1 hst1
  have hpos : 0 < initialTmp * coolingRate ^ k := mul_pos hT (pow_pos hc0 k)
  refine ⟨st, st1, hst, hst1, ?_, ?_, ?_⟩
  · rw [e]; exact hpos
  · rw [e1]; exact mul_pos hT (pow_pos hc0 _)
  · rw [e, e1, pow_succ, ← mul_assoc]
    exact mul_lt_of_lt_one_right hpos hc1

/-- C18. Best is the minimum seen: on at least two points, after every iteration `k`,
`bestDistance` is the least of the initial tour length (the `currentDistance` after 0
iterations) and the values `currentDistance` held after iterations `1 .. k`: it is below each
of them and equal to one of them; so `bestDistance ≤ currentDistance` at all times, and the
returned tour is no longer than the initial shuffled tour. -/
theorem best_is_minimum (L : Env D) (s_points : List Point) (iteration : Int)
    (initialTmp coolingRate : D) (hn : 2 ≤ s_points.length)
    (hshuffle : List.Perm (L.shuffle (iotaTour (s_points.length : Int)))
      (iotaTour (s_points.length : Int)))
    (hrand : ∀ m, 0 ≤ L.rand m) :
    (∃ st0, annealAfter L s_points initialTmp coolingRate 0 = .ok st0 ∧
      cal_Total_Dis L.sqrt s_points (L.shuffle (iotaTour (s_points.length : Int)))
        = .ok st0.currentDistance) ∧
    (∀ k : Nat, ∃ st, annealAfter L s_points initialTmp coolingRate k = .ok st ∧
      (∀ j ≤ k, ∀ stj, annealAfter L s_points initialTmp coolingRate j = .ok stj →
        st.bestDistance ≤ stj.currentDistance) ∧
      (∃ j ≤ k, ∃ stj, annealAfter L s_points initialTmp coolingRate j = .ok stj ∧
        st.bestDistance = stj.currentDistance) ∧
      st.bestDistance ≤ st.currentDistance) ∧
    ∃ (tour : List Int) (len len0 : D),
      simulateAnnealing L s_points iteration initialTmp coolingRate = .ok tour ∧
      cal_Total_Dis L.sqrt s_points tour = .ok len ∧
      cal_Total_Dis L.sqrt s_points (L.shuffle (iotaTour (s_points.length : Int)))
        = .ok len0 ∧
      len ≤ len0 := by
  obtain ⟨st0, hinit, hcur0, -, -, hdist0, -⟩ :=
    annealInit_run L s_points initialTmp (by omega) hshuffle
  have h0 : annealAfter L s_points initialTmp coolingRate 0 = .ok st0 := by
    simp [annealAfter, hinit, annealIters, bind, Except.bind]
  rw [hcur0] at hdist0
  refine ⟨⟨st0, h0, hdist0⟩, ?_, ?_⟩
  · intro k
    obtain ⟨st, hst, -, -, -, hle, hlow, hatt⟩ :=
      annealAfter_tracked L s_points initialTmp coolingRate hn hshuffle hrand k
    exact ⟨st, hst, hlow, hatt, hle⟩
  · obtain ⟨st, hst, -, -, hb, -, hlow, -⟩ :=
      annealAfter_tracked L s_points initialTmp coolingRate hn hshuffle hrand iteration.toNat
    refine ⟨st.bestTour, st.bestDistance, st0.currentDistance, ?_, hb, hdist0,
      hlow 0 (Nat.zero_le _) st0 h0⟩
    simp [simulateAnnealing, hst, bind, Except.bind]

end

theorem best_changes_only_on_improvement_witness :
    ∃ (swapped : List Int) (new_Distance : ℝ) (st1 : AnnealState ℝ),
      annealBody (⟨Real.sqrt, Real.exp, 2147483647, id, fun _ => 0⟩ : Env ℝ)
        [⟨0, 0, 1⟩, ⟨3, 4, 2⟩] 2 (4 / 5) 0 ⟨[1, 0], 10, [1, 0], 10, 1000, 0, []⟩ = .ok st1 ∧
      (accepts (⟨Real.sqrt, Real.exp, 2147483647, id, fun _ => 0⟩ : Env ℝ)
          (new_Distance - 10) 1000
          (uniformDraw (⟨Real.sqrt, Real.exp, 2147483647, id, fun _ => 0⟩ : Env ℝ) 0) = true →
        10 ≤ new_Distance → st1.bestTour = [1, 0] ∧ st1.bestDistance = 10) ∧
      (accepts (⟨Real.sqrt, Real.exp, 2147483647, id, fun _ => 0⟩ : Env ℝ)
          (new_Distance - 10) 1000
          (uniformDraw (⟨Real.sqrt, Real.exp, 2147483647, id, fun _ => 0⟩ : Env ℝ) 0) = true →
        new_Distance < 10 →
        st1.bestTour = swapped ∧ st1.currentTour = swapped ∧
        st1.bestDistance = new_Distance) := by
  obtain ⟨i, j, swapped, nd, st1, -, -, -, hbody, -, h2, h3⟩ :=
    best_changes_only_on_improvement
      (⟨Real.sqrt, Real.exp, 2147483647, id, fun _ => 0⟩ : Env ℝ)
      [⟨0, 0, 1⟩, ⟨3, 4, 2⟩] (4 / 5) 0 ⟨[1, 0], 10, [1, 0], 10, 1000, 0, []⟩ (by decide)
      (fun _ => le_refl _) (by decide)
  exact ⟨swapped, nd, st1, hbody, h2, h3⟩

theorem distances_tracked_witness :
    ∃ (st : AnnealState ℝ) (tour : List Int),
      annealAfter (⟨Real.sqrt, Real.exp, 2147483647, id, fun _ => 0⟩ : Env ℝ)
        [⟨0, 0, 1⟩, ⟨3, 4, 2⟩] 1000 (4 / 5) (Int.toNat 10000) = .ok st ∧
      simulateAnnealing (⟨Real.sqrt, Real.exp, 2147483647, id, fun _ => 0⟩ : Env ℝ)
        [⟨0, 0, 1⟩, ⟨3, 4, 2⟩] 10000 1000 (4 / 5) = .ok tour ∧
      cal_Total_Dis Real.sqrt [⟨0, 0, 1⟩, ⟨3, 4, 2⟩] tour = .ok st.bestDistance :=
  (distances_tracked (⟨Real.sqrt, Real.exp, 2147483647, id, fun _ => 0⟩ : Env ℝ)
    [⟨0, 0, 1⟩, ⟨3, 4, 2⟩] 10000 1000 (4 / 5) (by decide) (List.Perm.refl _)
    (fun _ => le_refl _)).2

theorem temperature_positive_decreasing_witness :
    ∃ st st1 : AnnealState ℝ,
      annealAfter (⟨Real.sqrt, Real.exp, 2147483647, id, fun _ => 0⟩ : Env ℝ)
        [⟨0, 0, 1⟩, ⟨3, 4, 2⟩] 1000 (4 / 5) 9 = .ok st ∧
      annealAfter (⟨Real.sqrt, Real.exp, 2147483647, id, fun _ => 0⟩ : Env ℝ)
        [⟨0, 0, 1⟩, ⟨3, 4, 2⟩] 1000 (4 / 5) (9 + 1) = .ok st1 ∧
      0 < st.temp ∧ 0 < st1.temp ∧ st1.temp < st.temp :=
  temperature_positive_decreasing (⟨Real.sqrt, Real.exp, 2147483647, id, fun _ => 0⟩ : Env ℝ)
    [⟨0, 0, 1⟩, ⟨3, 4, 2⟩] 1000 (4 / 5) (by decide) (List.Perm.refl _) (fun _ => le_refl _)
    (by norm_num) (by norm_num) (by norm_num) 9

theorem best_is_minimum_witness :
    ∃ (tour : List Int) (len len0 : ℝ),
      simulateAnnealing (⟨Real.sqrt, Real.exp, 2147483647, id, fun _ => 0⟩ : Env ℝ)
        [⟨0, 0, 1⟩, ⟨3, 4, 2⟩] 10000 1000 (4 / 5) = .ok tour ∧
      cal_Total_Dis Real.sqrt [⟨0, 0, 1⟩, ⟨3, 4, 2⟩] tour = .ok len ∧
      cal_Total_Dis Real.sqrt [⟨0, 0, 1⟩, ⟨3, 4, 2⟩] [0, 1] = .ok len0 ∧
      len ≤ len0 :=
  (best_is_minimum (⟨Real.sqrt, Real.exp, 2147483647, id, fun _ => 0⟩ : Env ℝ)
    [⟨0, 0, 1⟩, ⟨3, 4, 2⟩] 10000 1000 (4 / 5) (by decide) (List.Perm.refl _)
    (fun _ => le_refl _)).2.2

/-! ## The exported file -/

theorem exportRow_zero (s_points : List Point) :
    exportRow s_points 0 = .error .outOfRange := by
  unfold exportRow
  cases h : vecAt s_points 0 with
  | error e =>
    unfold vecAt at h
    simp only [lt_self_iff_false, ↓reduceIte] at h
    split at h <;> cases h
    rfl
  | ok p => simp [bind, Except.bind, vecAt]

theorem vecAt_fault {α : Type} (v : List α) (i : Int) (e : Fault)
    (h : vecAt v i = .error e) : e = .outOfRange := by
  unfold vecAt at h
  split at h
  · cases h; rfl
  · split at h
    · cases h
    · cases h; rfl

theorem exportRow_fault (s_points : List Point) (idx : Int) (e : Fault)
    (h : exportRow s_points idx = .error e) : e = .outOfRange := by
  unfold exportRow at h
  cases hp : vecAt s_points idx with
  | error e1 =>
    rw [hp] at h
    cases h
    exact vecAt_fault _ _ _ hp
  | ok p =>
    cases hq : vecAt s_points (idx - 1) with
    | error e1 =>
      rw [hp, hq] at h
      cases h
      exact vecAt_fault _ _ _ hq
    | ok q =>
      rw [hp, hq] at h
      cases h

theorem mapM_exportRow_zero (s_points : List Point) (tour : List Int) (h0 : (0 : Int) ∈ tour) :
    tour.mapM (exportRow s_points) = .error .outOfRange := by
  induction tour with
  | nil => cases h0
  | cons a t ih =>
    rw [List.mapM_cons]
    cases ha : exportRow s_points a with
    | error e =>
      rw [exportRow_fault s_points a e ha]
      rfl
    | ok row =>
      have hne : a ≠ 0 := by
        intro h
        rw [h, exportRow_zero] at ha
        cases ha
      have h0t : (0 : Int) ∈ t := by
        rcases List.mem_cons.mp h0 with h | h
        · exact absurd h.symm hne
        · exact h
      rw [ih h0t]
      rfl

/-- C19, as the code behaves: for every non-empty point list and every tour that is a
permutation of `0 .. n-1`, writing the file reads the point list outside `0 .. n-1`: the row
for the tour entry 0 reads `s_points[-1]`. -/
theorem exportTourtoCSV_reads_out_of_range (s_points : List Point) (tour : List Int)
    (hn : 1 ≤ s_points.length)
    (hperm : List.Perm tour (iotaTour (s_points.length : Int))) :
    exportRow s_points 0 = .error .outOfRange ∧
    exportTourtoCSV s_points tour true = .error .outOfRange := by
  have h0 : (0 : Int) ∈ tour := by
    rw [hperm.mem_iff]
    simp only [iotaTour, Int.toNat_ofNat, List.mem_map, List.mem_range]
    exact ⟨0, by omega, rfl⟩
  refine ⟨exportRow_zero s_points, ?_⟩
  unfold exportTourtoCSV
  rw [if_pos rfl, mapM_exportRow_zero s_points tour h0]
  rfl

theorem exportTourtoCSV_reads_out_of_range_witness :
    exportRow [{ index := 1, x := 10, y := 20 }] 0 = .error .outOfRange ∧
    exportTourtoCSV [{ index := 1, x := 10, y := 20 }] [0] true = .error .outOfRange :=
  exportTourtoCSV_reads_out_of_range [{ index := 1, x := 10, y := 20 }] [0] (by decide)
    (List.Perm.refl _)

/-- C11, as the code behaves: for the points `(1,10,20)` and `(2,30,40)` (label, x, y) and
the tour `[1,0]`, the row written for `tour[0]` is `2,30,20` and the closing row is
`2,30, 40`: the closing row has a blank after the second comma and carries the point's own
`y`, so it is not a duplicate of the first data row; and the rows between them are not all
written, since the row for the tour entry 0 reads `s_points[-1]`. -/
theorem exportTourtoCSV_closing_row_differs :
    exportRow [{ index := 1, x := 10, y := 20 }, { index := 2, x := 30, y := 40 }] 1
      = .ok "2,30,20" ∧
    exportClosingRow [{ index := 1, x := 10, y := 20 }, { index := 2, x := 30, y := 40 }]
      [1, 0] = .ok "2,30, 40" ∧
    "2,30, 40" ≠ "2,30,20" ∧ "2,30, 40" ≠ "2,30,40" ∧
    exportTourtoCSV [{ index := 1, x := 10, y := 20 }, { index := 2, x := 30, y := 40 }]
      [1, 0] true = .error .outOfRange := by
  refine ⟨rfl, rfl, by decide, by decide, rfl⟩

/-! ## Reading the points -/

theorem isDigit_not_space (c : Char) (h : isSpaceChar c = true) : isDigitChar c = false := by
  unfold isSpaceChar at h
  unfold isDigitChar
  simp only [Bool.or_eq_true, Bool.and_eq_true, decide_eq_true_eq] at h
  simp only [Bool.and_eq_false_iff, decide_eq_false_iff_not]
  omega

theorem takeWhile_append_boundary (p : Char → Bool) (l rest : List Char)
    (h : rest = [] ∨ ∃ c r, rest = c :: r ∧ p c = false) :
    (l ++ rest).takeWhile p = l.takeWhile p ∧
    (l ++ rest).dropWhile p = l.dropWhile p ++ rest := by
  induction l with
  | nil =>
    rcases h with h | ⟨c, r, h, hc⟩
    · simp [h]
    · simp [h, List.takeWhile, List.dropWhile, hc]
  | cons a l ih =>
    by_cases ha : p a = true
    · simp [List.takeWhile, List.dropWhile, ha, ih.1, ih.2]
    · simp [List.takeWhile, List.dropWhile, ha]

theorem dropWhile_space_lead (lead t rest : List Char)
    (hlead : ∀ c ∈ lead, isSpaceChar c = true) (hne : t ≠ [])
    (ht : ∀ c ∈ t, isSpaceChar c = false) :
    (lead ++ t ++ rest).dropWhile isSpaceChar = t ++ rest := by
  induction lead with
  | nil =>
    cases t with
    | nil => exact absurd rfl hne
    | cons c t1 =>
      have hc := ht c (List.mem_cons_self _ _)
      simp [List.dropWhile, hc]
  | cons a lead ih =>
    have ha := hlead a (List.mem_cons_self _ _)
    simp only [List.cons_append, List.dropWhile, ha]
    exact ih (fun c hc => hlead c (List.mem_cons_of_mem _ hc))

theorem readDigits_append (neg : Bool) (body rest : List Char) (hb : rest = [] ∨ ∃ c r, rest = c :: r ∧ isSpaceChar c = true) :
    readDigits neg (body ++ rest) =
      (readDigits neg body).map (fun p => (p.1, p.2 ++ rest)) := by
  have hb1 : rest = [] ∨ ∃ c r, rest = c :: r ∧ isDigitChar c = false := by
    rcases hb with h | ⟨c, r, h, hc⟩
    · exact Or.inl h
    · exact Or.inr ⟨c, r, h, isDigit_not_space c hc⟩
  obtain ⟨e1, e2⟩ := takeWhile_append_boundary isDigitChar body rest hb1
  unfold readDigits
  simp only [e1, e2]
  split_ifs <;> rfl

theorem signOf_append (c : Char) (t rest : List Char) :
    signOf (c :: t ++ rest) = ((signOf (c :: t)).1, (signOf (c :: t)).2 ++ rest) := by
  simp only [signOf, List.cons_append]
  split_ifs <;> rfl

/-- Extraction at a token: the white space before it is skipped, and the result is that of
the extraction on the token alone, followed by the rest of the text. -/
theorem extractInt_token (lead t rest : List Char)
    (hlead : ∀ c ∈ lead, isSpaceChar c = true) (hne : t ≠ [])
    (ht : ∀ c ∈ t, isSpaceChar c = false) (hb : rest = [] ∨ ∃ c r, rest = c :: r ∧ isSpaceChar c = true) :
    extractInt (lead ++ t ++ rest) = (extractInt t).map (fun p => (p.1, p.2 ++ rest)) := by
  have e1 := dropWhile_space_lead lead t rest hlead hne ht
  have e2 : t.dropWhile isSpaceChar = t := by
    have := dropWhile_space_lead [] t [] (by simp) hne ht
    simpa using this
  unfold extractInt
  rw [e1, e2]
  cases t with
  | nil => exact absurd rfl hne
  | cons c t1 =>
    rw [signOf_append]
    exact readDigits_append _ _ rest hb

theorem extractInt_space (s : List Char) (hs : ∀ c ∈ s, isSpaceChar c = true) :
    extractInt s = none := by
  have : s.dropWhile isSpaceChar = [] := by
    rw [List.dropWhile_eq_nil_iff]
    exact hs
  unfold extractInt
  rw [this]
  rfl

theorem extractInt_of_intOfToken (t : List Char) (v : Int) (h : intOfToken t = some v)
    (ht : ∀ c ∈ t, isSpaceChar c = false) : extractInt t = some (v, []) := by
  unfold intOfToken at h
  dsimp only at h
  rcases hsg : signOf t with ⟨neg, body⟩
  rw [hsg] at h
  dsimp only at h
  by_cases hc : body ≠ [] ∧ body.all isDigitChar = true ∧
      -2147483648 ≤ (if neg = true then -(digitsValue body : Int) else (digitsValue body : Int)) ∧
      (if neg = true then -(digitsValue body : Int) else (digitsValue body : Int)) ≤ 2147483647
  · rw [if_pos hc] at h
    obtain ⟨hne, hall, hlo, hhi⟩ := hc
    have hne1 : t ≠ [] := by
      intro h0
      rw [h0] at hsg
      simp only [signOf, Prod.mk.injEq] at hsg
      exact hne hsg.2.symm
    have e2 : t.dropWhile isSpaceChar = t := by
      have := dropWhile_space_lead [] t [] (by simp) hne1 ht
      simpa using this
    have htake : body.takeWhile isDigitChar = body := by
      rw [List.takeWhile_eq_self_iff]
      exact List.all_eq_true.mp hall
    have hdrop : body.dropWhile isDigitChar = [] := by
      rw [List.dropWhile_eq_nil_iff]
      exact List.all_eq_true.mp hall
    unfold extractInt readDigits
    simp only [e2, hsg, htake, hdrop, if_neg hne]
    rw [if_pos ⟨hlo, hhi⟩]
    simpa using h
  · rw [if_neg hc] at h
    cases h

theorem layout_boundary (t sep : List Char) (r : List (List Char × List Char))
    (h : WellSeparated ((t, sep) :: r)) :
    layout sep r = [] ∨ ∃ c r1, layout sep r = c :: r1 ∧ isSpaceChar c = true := by
  obtain ⟨-, -, hsep, hr, -⟩ := h
  cases sep with
  | nil =>
    rcases hr with hr | hr
    · left; rw [hr]; rfl
    · exact absurd rfl hr
  | cons c sep1 =>
    right
    cases r with
    | nil => exact ⟨c, sep1, rfl, hsep c (List.mem_cons_self _ _)⟩
    | cons a r1 =>
      obtain ⟨t1, s1⟩ := a
      exact ⟨c, sep1 ++ t1 ++ layout s1 r1, by simp [layout], hsep c (List.mem_cons_self _ _)⟩

/-- Extraction at the start of a laid-out text: it fails when no token is left, and otherwise
acts on the first token. -/
theorem extractInt_layout_cons (lead t sep : List Char) (r : List (List Char × List Char))
    (hlead : ∀ c ∈ lead, isSpaceChar c = true) (h : WellSeparated ((t, sep) :: r)) :
    extractInt (layout lead ((t, sep) :: r)) =
      (extractInt t).map (fun p => (p.1, p.2 ++ layout sep r)) := by
  have hb := layout_boundary t sep r h
  obtain ⟨hne, ht, -⟩ := h
  exact extractInt_token lead t _ hlead hne ht hb

theorem extractInt_layout_good (lead t sep : List Char) (r : List (List Char × List Char))
    (v : Int) (hlead : ∀ c ∈ lead, isSpaceChar c = true) (h : WellSeparated ((t, sep) :: r))
    (hv : intOfToken t = some v) :
    extractInt (layout lead ((t, sep) :: r)) = some (v, layout sep r) := by
  rw [extractInt_layout_cons lead t sep r hlead h, extractInt_of_intOfToken t v hv h.2.1]
  rfl

theorem extractInt_layout_stop (lead : List Char) (more : List (List Char × List Char))
    (hlead : ∀ c ∈ lead, isSpaceChar c = true) (h : WellSeparated more)
    (hmore : more = [] ∨ ∃ b sep r, more = (b, sep) :: r ∧ extractInt b = none) :
    extractInt (layout lead more) = none := by
  rcases hmore with hm | ⟨b, sep, r, hm, hb⟩
  · rw [hm]
    exact extractInt_space lead hlead
  · rw [hm] at h ⊢
    rw [extractInt_layout_cons lead b sep r hlead h, hb]
    rfl

theorem read_points_loop_stop (fuel : Nat) (s : List Char) (S_points : List Point)
    (h : readRecord s = none) : read_points_loop fuel s S_points = S_points := by
  cases fuel with
  | zero => rfl
  | succ n => simp [read_points_loop, h]

theorem readRecord_stop1 (s : List Char) (h : extractInt s = none) : readRecord s = none := by
  simp [readRecord, h, bind, Option.bind]

theorem readRecord_stop2 (s s1 : List Char) (v1 : Int) (h1 : extractInt s = some (v1, s1))
    (h : extractInt s1 = none) : readRecord s = none := by
  simp [readRecord, h1, h, bind, Option.bind]

theorem readRecord_stop3 (s s1 s2 : List Char) (v1 v2 : Int)
    (h1 : extractInt s = some (v1, s1)) (h2 : extractInt s1 = some (v2, s2))
    (h : extractInt s2 = none) : readRecord s = none := by
  simp [readRecord, h1, h2, h, bind, Option.bind]

theorem readRecord_three (s s1 s2 s3 : List Char) (v1 v2 v3 : Int)
    (h1 : extractInt s = some (v1, s1)) (h2 : extractInt s1 = some (v2, s2))
    (h3 : extractInt s2 = some (v3, s3)) :
    readRecord s = some ({ index := v1, x := v2, y := v3 }, s3) := by
  simp [readRecord, h1, h2, h3, bind, Option.bind]

/-- The loop of `read_points` on a laid-out text whose first tokens `good` are integers with
values `vals`, followed by nothing or by a token on which extraction fails: it appends
`pointsOf vals`. -/
theorem read_points_loop_layout (more : List (List Char × List Char))
    (hmore : more = [] ∨ ∃ b sep r, more = (b, sep) :: r ∧ extractInt b = none) :
    ∀ (n : Nat) (good : List (List Char × List Char)) (vals : List Int) (lead : List Char)
      (S_points : List Point) (fuel : Nat),
      good.length ≤ n →
      List.Forall₂ (fun g v => intOfToken g.1 = some v) good vals →
      (∀ c ∈ lead, isSpaceChar c = true) →
      WellSeparated (good ++ more) →
      (layout lead (good ++ more)).length ≤ fuel →
      read_points_loop fuel (layout lead (good ++ more)) S_points
        = S_points ++ pointsOf vals := by
  intro n
  induction n with
  | zero =>
    intro good vals lead S_points fuel hlen hgood hlead hws _
    have hg : good = [] := List.length_eq_zero.mp (by omega)
    subst hg
    cases hgood
    have hr : readRecord (layout lead ([] ++ more)) = none :=
      readRecord_stop1 _ (extractInt_layout_stop lead more hlead hws hmore)
    rw [read_points_loop_stop _ _ _ hr]
    simp [pointsOf]
  | succ n ih =>
    intro good vals lead S_points fuel hlen hgood hlead hws hfuel
    cases hgood with
    | nil =>
      have hr : readRecord (layout lead ([] ++ more)) = none :=
        readRecord_stop1 _ (extractInt_layout_stop lead more hlead hws hmore)
      rw [read_points_loop_stop _ _ _ hr]
      simp [pointsOf]
    | @cons g1 v1 good1 vals1 h1 hgood1 =>
      obtain ⟨t1, sep1⟩ := g1
      have hws1 : WellSeparated ((t1, sep1) :: (good1 ++ more)) := hws
      have e1 : extractInt (layout lead ((t1, sep1) :: good1 ++ more))
          = some (v1, layout sep1 (good1 ++ more)) :=
        extractInt_layout_good lead t1 sep1 (good1 ++ more) v1 hlead hws1 h1
      have hsep1 := hws1.2.2.1
      have hws2 : WellSeparated (good1 ++ more) := hws1.2.2.2.2
      cases hgood1 with
      | nil =>
        have hr := readRecord_stop2 _ _ v1 e1
          (extractInt_layout_stop sep1 more hsep1 hws2 hmore)
        rw [read_points_loop_stop _ _ _ hr]
        simp [pointsOf]
      | @cons g2 v2 good2 vals2 h2 hgood2 =>
        obtain ⟨t2, sep2⟩ := g2
        have hws2a : WellSeparated ((t2, sep2) :: (good2 ++ more)) := hws2
        have e2 : extractInt (layout sep1 ((t2, sep2) :: good2 ++ more))
            = some (v2, layout sep2 (good2 ++ more)) :=
          extractInt_layout_good sep1 t2 sep2 (good2 ++ more) v2 hsep1 hws2a h2
        have hsep2 := hws2a.2.2.1
        have hws3 : WellSeparated (good2 ++ more) := hws2a.2.2.2.2
        cases hgood2 with
        | nil =>
          have hr := readRecord_stop3 _ _ _ v1 v2 e1 e2
            (extractInt_layout_stop sep2 more hsep2 hws3 hmore)
          rw [read_points_loop_stop _ _ _ hr]
          simp [pointsOf]
        | @cons g3 v3 good3 vals3 h3 hgood3 =>
          obtain ⟨t3, sep3⟩ := g3
          have hws3a : WellSeparated ((t3, sep3) :: (good3 ++ more)) := hws3
          have e3 : extractInt (layout sep2 ((t3, sep3) :: good3 ++ more))
              = some (v3, layout sep3 (good3 ++ more)) :=
            extractInt_layout_good sep2 t3 sep3 (good3 ++ more) v3 hsep2 hws3a h3
          have hsep3 := hws3a.2.2.1
          have hws4 : WellSeparated (good3 ++ more) := hws3a.2.2.2.2
          have hrec := readRecord_three _ _ _ _ v1 v2 v3 e1 e2 e3
          have hlen1 : (layout sep3 (good3 ++ more)).length + 1 ≤
              (layout lead ((t1, sep1) :: (t2, sep2) :: (t3, sep3) :: good3 ++ more)).length := by
            have ht1 : 1 ≤ t1.length := List.length_pos.mpr hws1.1
            have hl : layout lead ((t1, sep1) :: (t2, sep2) :: (t3, sep3) :: good3 ++ more)
                = lead ++ t1 ++ (sep1 ++ t2 ++ (sep2 ++ t3 ++ layout sep3 (good3 ++ more))) :=
              rfl
            rw [hl]
            simp only [List.length_append]
            omega
          cases fuel with
          | zero => exact absurd hfuel (by omega)
          | succ fuel1 =>
            have hstep : read_points_loop (fuel1 + 1)
                (layout lead ((t1, sep1) :: (t2, sep2) :: (t3, sep3) :: good3 ++ more)) S_points
                = read_points_loop fuel1 (layout sep3 (good3 ++ more))
                    (S_points ++ [{ index := v1, x := v2, y := v3 }]) := by
              simp only [read_points_loop, hrec]
            have hlen3 : good3.length ≤ n := by
              simp only [List.length_cons] at hlen
              omega
            have hfuel1 : (layout sep3 (good3 ++ more)).length ≤ fuel1 := by
              have : (layout lead ((t1, sep1) :: (t2, sep2) :: (t3, sep3) :: good3 ++ more)).length
                  ≤ fuel1 + 1 := hfuel
              omega
            have hgoal : read_points_loop (fuel1 + 1)
                (layout lead ((t1, sep1) :: (t2, sep2) :: (t3, sep3) :: good3 ++ more)) S_points
                = S_points ++ pointsOf (v1 :: v2 :: v3 :: vals3) := by
              rw [hstep, ih good3 vals3 sep3 _ fuel1 hlen3 hgood3 hsep3 hws4 hfuel1]
              simp [pointsOf]
            exact hgoal

theorem pointsOf_spec : ∀ (vals : List Int),
    (pointsOf vals).length = vals.length / 3 ∧
    ∀ m, m < vals.length / 3 →
      ∃ index x y, vals[3 * m]? = some index ∧ vals[3 * m + 1]? = some x ∧
        vals[3 * m + 2]? = some y ∧
        (pointsOf vals)[m]? = some { index := index, x := x, y := y }
  | [] => by simp [pointsOf]
  | [_] => by simp [pointsOf]
  | [_, _] => by simp [pointsOf]
  | a :: b :: c :: r => by
    obtain ⟨h1, h2⟩ := pointsOf_spec r
    have hlen : (a :: b :: c :: r).length / 3 = r.length / 3 + 1 := by
      simp only [List.length_cons]
      omega
    refine ⟨by simp only [pointsOf, List.length_cons, h1]; omega, ?_⟩
    intro m hm
    rw [hlen] at hm
    cases m with
    | zero => exact ⟨a, b, c, by simp, by simp, by simp, by simp [pointsOf]⟩
    | succ m =>
      obtain ⟨i, x, y, e1, e2, e3, e4⟩ := h2 m (by omega)
      refine ⟨i, x, y, ?_, ?_, ?_, ?_⟩
      · rw [show 3 * (m + 1) = 3 * m + 1 + 1 + 1 from by ring]
        simp only [List.getElem?_cons_succ]
        exact e1
      · rw [show 3 * (m + 1) + 1 = 3 * m + 1 + 1 + 1 + 1 from by ring]
        simp only [List.getElem?_cons_succ]
        exact e2
      · rw [show 3 * (m + 1) + 2 = 3 * m + 2 + 1 + 1 + 1 from by ring]
        simp only [List.getElem?_cons_succ]
        exact e3
      · simp only [pointsOf, List.getElem?_cons_succ]
        exact e4

/-- C12, as the code behaves: in a text whose tokens up to the first missing token, or the
first token on which the extraction of an `int` fails, are all integers (optional sign,
decimal digits, within `int`), `read_points` returns true and appends, in input order, one
point per complete triple of those integers: with `3k`, `3k+1` or `3k+2` of them exactly `k`
points, the `m`-th made of the integers `3m-2`, `3m-1`, `3m` as `index`, `x`, `y`. -/
theorem read_points_tokens (S_points : List Point) (lead : List Char)
    (good more : List (List Char × List Char)) (vals : List Int)
    (hlead : ∀ c ∈ lead, isSpaceChar c = true)
    (hws : WellSeparated (good ++ more))
    (hgood : List.Forall₂ (fun g v => intOfToken g.1 = some v) good vals)
    (hmore : more = [] ∨ ∃ b sep r, more = (b, sep) :: r ∧ extractInt b = none) :
    read_points S_points true (layout lead (good ++ more))
      = (true, S_points ++ pointsOf vals) ∧
    (∀ k j, vals.length = 3 * k + j → j < 3 → (pointsOf vals).length = k) ∧
    (∀ m, m < vals.length / 3 →
      ∃ index x y, vals[3 * m]? = some index ∧ vals[3 * m + 1]? = some x ∧
        vals[3 * m + 2]? = some y ∧
        (pointsOf vals)[m]? = some { index := index, x := x, y := y }) := by
  obtain ⟨h1, h2⟩ := pointsOf_spec vals
  refine ⟨?_, ?_, h2⟩
  · unfold read_points
    rw [if_pos rfl, read_points_loop_layout more hmore good.length good vals lead S_points _
      (le_refl _) hgood hlead hws (le_refl _)]
  · intro k j hk hj
    rw [h1, hk]
    omega

theorem read_points_tokens_witness :
    read_points [] true
      (layout [] [("1".toList, " ".toList), ("10".toList, " ".toList),
        ("20".toList, " ".toList), ("2".toList, " ".toList), ("-30".toList, " ".toList),
        ("+40".toList, " ".toList), ("3".toList, " ".toList), ("abc".toList, [])])
      = (true, [{ index := 1, x := 10, y := 20 }, { index := 2, x := -30, y := 40 }]) :=
  (read_points_tokens [] []
    [("1".toList, " ".toList), ("10".toList, " ".toList),
      ("20".toList, " ".toList), ("2".toList, " ".toList), ("-30".toList, " ".toList),
      ("+40".toList, " ".toList), ("3".toList, " ".toList)]
    [("abc".toList, [])] [1, 10, 20, 2, -30, 40, 3]
    (by simp) (by decide)
    (List.Forall₂.cons rfl (List.Forall₂.cons rfl (List.Forall₂.cons rfl (List.Forall₂.cons rfl
      (List.Forall₂.cons rfl (List.Forall₂.cons rfl (List.Forall₂.cons rfl
        List.Forall₂.nil)))))))
    (Or.inr ⟨"abc".toList, [], [], rfl, rfl⟩)).1

/-- C12 as stated fails: in the text `1 2 3abc` the third token is not an integer, so no
complete record of integers precedes the malformed token and the claim gives no point
(`k = 0`); the extraction reads the leading `3` of the token and one point is appended. -/
theorem read_points_reads_integer_prefix :
    layout [] [("1".toList, " ".toList), ("2".toList, " ".toList), ("3abc".toList, [])]
      = "1 2 3abc".toList ∧
    WellSeparated [("1".toList, " ".toList), ("2".toList, " ".toList), ("3abc".toList, [])] ∧
    intOfToken "3abc".toList = none ∧
    read_points [] true "1 2 3abc".toList = (true, [{ index := 1, x := 2, y := 3 }]) ∧
    read_points [] true "1 2 3abc".toList ≠ (true, [] ++ pointsOf []) := by
  refine ⟨rfl, by decide, rfl, rfl, by decide⟩

end TSP
